import Mathlib

/-!
# pborman/getopt: the tag mini-language of `v2/options`, the registry, the value adapters

A shallow embedding of `parseTag`, `nextOption`, `argPrefix`, `register`,
`Lookup` and `Dup` from `v2/options/options.go`, of `Set.VarLong` from `var.go`
and of `boolValue` and `stringValue` from `getopt/bool.go` and
`getopt/string.go`.

Go strings are modelled as `List Char`: the sequence of code points of a
well-formed UTF-8 string.  Every byte offset the source computes
(`strings.Index` of a one-byte separator, the index of a `range` loop) falls on
a code point boundary of such a string, so slicing by byte offset is slicing
the list.  The zero rune is `Char.ofNat 0`.
-/

namespace Getopt

/-! ## Library functions used by the source -/

/-- Go's `unicode.IsSpace`: the code points with the White_Space property. -/
def isSpace (c : Char) : Bool :=
  let n := c.toNat
  decide ((0x09 ≤ n ∧ n ≤ 0x0d) ∨ n = 0x20 ∨ n = 0x85 ∨ n = 0xa0 ∨ n = 0x1680
    ∨ (0x2000 ≤ n ∧ n ≤ 0x200a) ∨ n = 0x2028 ∨ n = 0x2029 ∨ n = 0x202f
    ∨ n = 0x205f ∨ n = 0x3000)

/-- Go's `strings.TrimSpace`: all leading and trailing white space removed. -/
def trimSpace (s : List Char) : List Char :=
  (s.dropWhile isSpace).rdropWhile isSpace

/-- Go's `strings.Index(s, sep)` for a one-character `sep`: the offset of its
first occurrence, `none` standing for `-1`. -/
def index : List Char → Char → Option Nat
  | [], _ => none
  | x :: xs, c => if x = c then some 0 else (index xs c).map (· + 1)

/-! ## `optTag`, errors -/

/-- The `optTag` struct: all the information extracted from a getopt tag. -/
structure optTag where
  long : List Char := []
  short : Char := Char.ofNat 0
  param : List Char := []
  help : List Char := []
  deriving DecidableEq, Repr

/-- The errors `parseTag` builds with `fmt.Errorf`; each carries the trimmed
tag that is printed with `%q`. -/
inductive TagError where
  | missingOptionName (tag : List Char)
  | multipleParams (tag : List Char)
  | tooManyShort (tag : List Char)
  | invalidShort (tag : List Char)
  | tooManyLong (tag : List Char)
  | tripleDash (tag : List Char)
  deriving DecidableEq, Repr

/-- The text of an error: the format string of the source with `%q` replaced
by `quote tag` (`quote` is Go's `strconv.Quote`, a parameter here). -/
def TagError.message (quote : List Char → List Char) : TagError → List Char
  | .missingOptionName tag => "getopt tag missing option name: ".toList ++ quote tag
  | .multipleParams tag => "getopt tag has multiple parameter names: ".toList ++ quote tag
  | .tooManyShort tag => "getopt tag has too many short names: ".toList ++ quote tag
  | .invalidShort tag => "getopt tag has invalid short name: ".toList ++ quote tag
  | .tooManyLong tag => "getopt tag has too many long names: ".toList ++ quote tag
  | .tripleDash tag => "getopt tag must not start with ---: ".toList ++ quote tag

/-- What `parseTag` returns: `(*optTag, error)`, a nil pointer and a nil error
being `none`. -/
abbrev TagResult := Option optTag × Option TagError

/-! ## `nextOption`, `argPrefix`, `parseTag` -/

/-- The function `nextOption`: the next option, its optional parameter and the
rest of the string. -/
def nextOption (s : List Char) : List Char × List Char × List Char :=
  match s with
  | [] => ([], [], s)
  | c :: _ =>
    if c ≠ '-' then ([], [], s)
    else
      let (s, rest) :=
        match index s ' ' with
        | some x => (s.take x, trimSpace (s.drop x))
        | none => (s, [])
      match index s '=' with
      | some x => (s.take x, s.drop (x + 1), rest)
      | none => (s, [], rest)

/-- The function `argPrefix`: the leading dashes in `a`. -/
def argPrefix (a : List Char) : List Char :=
  a.takeWhile (· == '-')

/-- One pass through the body of the `for` loop of `parseTag`: it either
returns from the function or goes round again with a new `o` and `next`. -/
inductive Step where
  | done (r : TagResult)
  | again (o : optTag) (next : List Char)
  deriving DecidableEq

/-- The body of the `for` loop of `parseTag`. -/
def parseStep (tag : List Char) (o : optTag) (next : List Char) : Step :=
  match nextOption next with
  | (arg, param, next) =>
    if arg = [] ∨ arg = ['-'] ∨ arg = ['-', '-'] then
      if param ≠ [] then .done (none, some (.missingOptionName tag))
      else if o.long = [] ∧ o.short = Char.ofNat 0 then
        if next ≠ [] then .done (none, some (.missingOptionName tag))
        else .done (none, none)
      else .done (some { o with help := next }, none)
    else if param ≠ [] ∧ o.param ≠ [] then .done (none, some (.multipleParams tag))
    else
      let o : optTag := if param ≠ [] then { o with param := param } else o
      if argPrefix arg = ['-'] then
        if o.short ≠ Char.ofNat 0 then .done (none, some (.tooManyShort tag))
        else
          match arg.drop 1 with
          | [] => .again o next
          | [r] => .again { o with short := r } next
          | _ :: _ :: _ => .done (none, some (.invalidShort tag))
      else if argPrefix arg = ['-', '-'] then
        if o.long ≠ [] then .done (none, some (.tooManyLong tag))
        else .again { o with long := arg.drop 2 } next
      else .done (none, some (.tripleDash tag))

/-- The `for` loop of `parseTag`, run for at most `fuel` passes; `none` when
the passes are used up before the loop returns. -/
def parseLoop : Nat → List Char → optTag → List Char → Option TagResult
  | 0, _, _, _ => none
  | fuel + 1, tag, o, next =>
    match parseStep tag o next with
    | .done r => some r
    | .again o next => parseLoop fuel tag o next

/-- The function `parseTag`.  Every pass that goes round again shortens
`next`, so `length + 1` passes are enough for the loop to return. -/
def parseTag (tag : List Char) : Option TagResult :=
  let tag := trimSpace tag
  if tag = [] then some (none, none)
  else parseLoop (tag.length + 1) tag {} tag

/-! ## `register`, `Validate`, `RegisterSet` -/

/-- What reflection shows of one struct field: `field.Name`, the value of
`field.Tag.Get("getopt")`, `fv.CanSet()` (the field is exported) and the
field itself, as passed on by `fv.Addr().Interface()`. -/
structure Field (α : Type) where
  name : List Char
  tag : List Char
  canSet : Bool
  value : α

/-- The argument `i interface{}`, as far as the kind checks tell it apart. -/
inductive Iface (α : Type) where
  | ptrToStruct (fields : List (Field α))
  | other

/-- The arguments of one call `set.FlagLong(value, long, short, helpvalue...)`. -/
structure FlagLongCall (α : Type) where
  value : α
  long : List Char
  short : Char
  helpvalue : List (List Char)

/-- The values of type `error` in this package. -/
inductive GoError where
  | notPtrToStruct
  | tag (e : TagError)
  deriving DecidableEq

/-- How a call of `register` ends. -/
inductive Outcome (σ : Type) where
  /-- The call returns `err`, leaving the set as given. -/
  | returned (err : Option GoError) (set : σ)
  /-- The statement `panic(err)` is reached. -/
  | panicked (err : TagError)
  /-- The field `o.help` is read through a nil `o`. -/
  | nilDeref
  /-- The call of `set.FlagLong` does not return. -/
  | flagLongFailed
  /-- The loop of `parseTag` has not returned within its passes. -/
  | stuck

/-- The tag `register` and `Lookup` make up from the lower-cased field name
when `parseTag` returns nil: the `range` loop over `n`. -/
def autoTag (n : List Char) : Option optTag :=
  match n with
  | [] => none
  | [r] => some { short := r }
  | _ :: _ :: _ => some { long := n }

/-- The loop of `register` over the fields, from field `i` on.  `toLower` is
`strings.ToLower`; `flagLong` is `(*getopt.Set).FlagLong`, `none` when it
does not return. -/
def registerFields {α σ : Type} (toLower : List Char → List Char)
    (flagLong : σ → FlagLongCall α → Option σ) : List (Field α) → σ → Outcome σ
  | [], set => .returned none set
  | field :: fields, set =>
    if field.tag = ['-'] ∨ field.canSet = false then
      registerFields toLower flagLong fields set
    else
      match parseTag field.tag with
      | none => .stuck
      | some (_, some err) => .panicked err
      | some (o, none) =>
        let o : Option optTag :=
          match o with
          | some o => some o
          | none => autoTag (toLower field.name)
        match o with
        | none => .nilDeref
        | some o =>
          let o : optTag := if o.help = [] then { o with help := "unspecified".toList } else o
          let hv : List (List Char) := [o.help, o.param]
          let hv := if o.param = [] then hv.take 1 else hv
          match flagLong set ⟨field.value, o.long, o.short, hv⟩ with
          | none => .flagLongFailed
          | some set => registerFields toLower flagLong fields set

/-- The function `register`. -/
def register {α σ : Type} (toLower : List Char → List Char)
    (flagLong : σ → FlagLongCall α → Option σ) (i : Iface α) (set : σ) : Outcome σ :=
  match i with
  | .other => .returned (some .notPtrToStruct) set
  | .ptrToStruct fields => registerFields toLower flagLong fields set

/-- The function `Validate`; `new` is the set `getopt.New()` returns. -/
def Validate {α σ : Type} (toLower : List Char → List Char)
    (flagLong : σ → FlagLongCall α → Option σ) (new : σ) (i : Iface α) : Outcome σ :=
  register toLower flagLong i new

/-- The function `RegisterSet`. -/
def RegisterSet {α σ : Type} (toLower : List Char → List Char)
    (flagLong : σ → FlagLongCall α → Option σ) (i : Iface α) (set : σ) : Outcome σ :=
  register toLower flagLong i set

/-! ## Vocabulary of the claims -/

/-- A string with no leading and no trailing white space. -/
def Trimmed (s : List Char) : Prop :=
  (∀ c, s.head? = some c → isSpace c = false) ∧
  (∀ c, s.getLast? = some c → isSpace c = false)

/-- A valid long name: non-empty, no space, no `=`, not beginning with `-`. -/
def ValidLong (l : List Char) : Prop :=
  l ≠ [] ∧ ' ' ∉ l ∧ '=' ∉ l ∧ l.head? ≠ some '-'

/-- A valid short name: a character other than `-`, `=`, space and NUL. -/
def ValidShort (c : Char) : Prop :=
  c ≠ '-' ∧ c ≠ '=' ∧ c ≠ ' ' ∧ c ≠ Char.ofNat 0

/-- An option token of a tag: `--L` for a valid long name `L`, or `-c` for a
valid short name `c`. -/
def IsOptionToken (t : List Char) : Prop :=
  (∃ l, ValidLong l ∧ t = '-' :: '-' :: l) ∨ (∃ c, ValidShort c ∧ t = ['-', c])

/-- What may follow an option token: nothing, or a space and more text. -/
def Sep (s : List Char) : Prop :=
  s = [] ∨ s.head? = some ' '

/-- A help text as it follows the option tokens in a trimmed tag: a space and
the text, or nothing when the text is empty. -/
def sepHelp (h : List Char) : List Char :=
  if h = [] then [] else ' ' :: h

/-- The substring test of the tests (`strings.Contains`). -/
def Contains (s sub : List Char) : Prop :=
  sub <:+: s

/-- The call returned no tag and an error whose message contains `sub`,
however `%q` prints the tag. -/
def failsWith (r : Option TagResult) (sub : List Char) : Prop :=
  ∃ e, r = some (none, some e) ∧
    ∀ quote : List Char → List Char, Contains (e.message quote) sub

/-! ## `strings.ToLower` -/

/-- Go's `unicode.ToLower`: an ASCII capital letter is moved to its small
letter and every other ASCII character is left alone; beyond ASCII the case
tables decide, `other` here. -/
def toLowerRune (other : Char → Char) (r : Char) : Char :=
  if r.toNat ≤ 127 then
    if 'A'.toNat ≤ r.toNat ∧ r.toNat ≤ 'Z'.toNat then Char.ofNat (r.toNat + ('a'.toNat - 'A'.toNat))
    else r
  else other r

/-- Go's `strings.ToLower`: every code point mapped by `unicode.ToLower`. -/
def stringsToLower (other : Char → Char) (s : List Char) : List Char :=
  s.map (toLowerRune other)

/-! ## `Lookup` and `Dup` -/

/-- How a call of `Lookup` ends: it returns a field value or nil, or it reads
`o.long` through a nil `o`, or `parseTag` has not returned. -/
inductive LookupOutcome (α : Type) where
  | returned (v : Option α)
  | nilDeref
  | stuck

/-- The loop of `Lookup` over the fields. -/
def lookupFields {α : Type} (toLower : List Char → List Char) :
    List (Field α) → List Char → LookupOutcome α
  | [], _ => .returned none
  | field :: fields, option =>
    if field.tag = ['-'] ∨ field.canSet = false then
      lookupFields toLower fields option
    else
      match parseTag field.tag with
      | none => .stuck
      | some (_, some _) => .returned none
      | some (o, none) =>
        let o : Option optTag :=
          match o with
          | some o => some o
          | none => autoTag (toLower field.name)
        match o with
        | none => .nilDeref
        | some o =>
          if option = o.long ∨ option = [o.short] then .returned (some field.value)
          else lookupFields toLower fields option

/-- The function `Lookup`. -/
def Lookup {α : Type} (toLower : List Char → List Char) (i : Iface α) (option : List Char) :
    LookupOutcome α :=
  match i with
  | .other => .returned none
  | .ptrToStruct fields => lookupFields toLower fields option

/-- How a call of `Dup` ends: it returns the new struct, or panics with the
error of `parseTag`, or panics because `i` is not a pointer to a struct, or
`parseTag` has not returned. -/
inductive DupOutcome (α : Type) where
  | returned (newi : List (Field α))
  | panicked (err : TagError)
  | notPtrToStruct
  | stuck

/-- The loop of `Dup` over the fields.  `newi` holds the fields of the new
struct the loop has passed: a field it skips keeps the zero value that
`reflect.New` gave it (`zero field`), any other is set to the field of `v`. -/
def dupFields {α : Type} (zero : Field α → α) :
    List (Field α) → List (Field α) → DupOutcome α
  | [], newi => .returned newi
  | field :: fields, newi =>
    if field.tag = ['-'] ∨ field.canSet = false then
      dupFields zero fields (newi ++ [{ field with value := zero field }])
    else
      match parseTag field.tag with
      | none => .stuck
      | some (_, some err) => .panicked err
      | some (_, none) => dupFields zero fields (newi ++ [field])

/-- The function `Dup`. -/
def Dup {α : Type} (zero : Field α → α) (i : Iface α) : DupOutcome α :=
  match i with
  | .other => .notPtrToStruct
  | .ptrToStruct fields => dupFields zero fields []

/-! ## The registry: `Set.VarLong` (package `getopt`, `var.go`) -/

/-- The fields of the struct `option` that `VarLong` fills in (`whereAt` is the
field `where`). -/
structure option (ν : Type) where
  short : Char
  long : List Char
  value : ν
  defval : List Char
  name : List Char := []
  help : List Char := []
  whereAt : List Char := []

/-- The fields of the struct `Set` that `VarLong` uses: the ordered options and
the two maps, a map being the function from a key to its entry. -/
structure Set (ν : Type) where
  options : List (option ν)
  shortOptions : Char → Option (option ν)
  longOptions : List Char → Option (option ν)

/-- Modelled from the spec: the registry before any declaration (the
constructor `New` is not among the sources): no options, empty maps. -/
def Set.empty {ν : Type} : Set ν :=
  ⟨[], fun _ => none, fun _ => none⟩

/-- What `VarLong` hands to `fmt.Fprintf(os.Stderr, ...)` before `os.Exit(1)`. -/
inductive Fatal where
  | noOption (whereAt : List Char)
  | shortDeclared (whereAt : List Char) (short : Char) (declaredAt : List Char)
  | longDeclared (whereAt : List Char) (long : List Char) (declaredAt : List Char)
  deriving DecidableEq

/-- The text of a fatal message.  For `noOption` it is the string the source
passes as the format, `opt.where + ": no short or long option given"`. -/
def Fatal.message : Fatal → List Char
  | .noOption w => w ++ ": no short or long option given".toList
  | .shortDeclared w c d => w ++ ": -".toList ++ [c] ++ " already declared at ".toList ++ d
  | .longDeclared w l d => w ++ ": --".toList ++ l ++ " already declared at ".toList ++ d

/-- How a call of `VarLong` ends: it returns the option, the registry being
`s` then; or the process exits with a message, the registry being `s` at that
moment; or it panics over the number of help strings. -/
inductive VarLongResult (ν : Type) where
  | returned (s : Set ν) (opt : option ν)
  | exited (s : Set ν) (f : Fatal)
  | panicked

/-- The first part of `VarLong`: the option as it is built from the arguments,
the help strings and the caller, before the checks; `none` when the `switch`
panics.  `render` is the method `String` of the value; `caller` is what
`runtime.Caller(1)` gives, file and line, `none` when it is not ok. -/
def VarLong.newOption {ν : Type} (render : ν → List Char) (caller : Option (List Char × Nat))
    (p : ν) (name : List Char) (short : Char) (helpvalue : List (List Char)) :
    Option (option ν) :=
  let opt : option ν := { short := short, long := name, value := p, defval := render p }
  let withHelp : Option (option ν) :=
    match helpvalue with
    | [] => some opt
    | [h] => some { opt with help := h }
    | [h, n] => some { opt with name := n, help := h }
    | _ :: _ :: _ :: _ => none
  match withHelp with
  | none => none
  | some opt =>
    match caller with
    | some (file, line) =>
      some { opt with whereAt := file ++ ":".toList ++ (Nat.repr line).toList }
    | none => some opt

/-- The second part of `VarLong`: the checks on the names of `opt` and its
entry into the maps and the list. -/
def VarLong.declare {ν : Type} (s : Set ν) (opt : option ν) : VarLongResult ν :=
  if opt.short = Char.ofNat 0 ∧ opt.long = [] then .exited s (.noOption opt.whereAt)
  else
    let afterShort : Except Fatal (Set ν) :=
      if opt.short ≠ Char.ofNat 0 then
        match s.shortOptions opt.short with
        | some oo => .error (.shortDeclared opt.whereAt opt.short oo.whereAt)
        | none =>
          .ok { s with shortOptions := fun k => if k = opt.short then some opt else s.shortOptions k }
      else .ok s
    match afterShort with
    | .error f => .exited s f
    | .ok s1 =>
      let afterLong : Except Fatal (Set ν) :=
        if opt.long ≠ [] then
          match s1.longOptions opt.long with
          | some oo => .error (.longDeclared opt.whereAt opt.long oo.whereAt)
          | none =>
            .ok { s1 with longOptions := fun k => if k = opt.long then some opt else s1.longOptions k }
        else .ok s1
      match afterLong with
      | .error f => .exited s1 f
      | .ok s2 => .returned { s2 with options := s2.options ++ [opt] } opt

/-- The method `(*Set).VarLong`. -/
def VarLong {ν : Type} (render : ν → List Char) (caller : Option (List Char × Nat))
    (s : Set ν) (p : ν) (name : List Char) (short : Char) (helpvalue : List (List Char)) :
    VarLongResult ν :=
  match VarLong.newOption render caller p name short helpvalue with
  | none => .panicked
  | some opt => VarLong.declare s opt

/-- A registry reached from the empty one by calls of `VarLong` that returned. -/
inductive Reachable {ν : Type} (render : ν → List Char) : Set ν → Prop where
  | empty : Reachable render Set.empty
  | declare {s s2 : Set ν} {opt : option ν} (caller : Option (List Char × Nat)) (p : ν)
      (name : List Char) (short : Char) (helpvalue : List (List Char)) :
      Reachable render s → VarLong render caller s p name short helpvalue = .returned s2 opt →
      Reachable render s2

/-! ## The value adapters `boolValue` and `stringValue` (package `getopt`) -/

/-- The errors of the value adapters: `fmt.Errorf("invalid value for bool %s:
%q", opt.Name(), value)`. -/
inductive ValueError where
  | invalidBool (name : List Char) (value : List Char)
  deriving DecidableEq

/-- The type `boolValue`. -/
abbrev boolValue := Bool

/-- The type `stringValue`. -/
abbrev stringValue := List Char

/-- The method `(*boolValue).Set`: the bool stored afterwards and the error
returned.  `optName` is `opt.Name()`. -/
def boolValue.Set (other : Char → Char) (b : boolValue) (value : List Char)
    (optName : List Char) : boolValue × Option ValueError :=
  let v := stringsToLower other value
  if v = "".toList ∨ v = "1".toList ∨ v = "true".toList ∨ v = "on".toList ∨ v = "t".toList then
    (true, none)
  else if v = "0".toList ∨ v = "false".toList ∨ v = "off".toList ∨ v = "f".toList then
    (false, none)
  else (b, some (.invalidBool optName value))

/-- The method `(*boolValue).String`. -/
def boolValue.String (b : boolValue) : List Char :=
  if b then "true".toList else "false".toList

/-- The method `(*stringValue).Set`: the string stored afterwards and the error
returned. -/
def stringValue.Set (_s : stringValue) (value : List Char) (_optName : List Char) :
    stringValue × Option ValueError :=
  (value, none)

/-- The method `(*stringValue).String`. -/
def stringValue.String (s : stringValue) : List Char :=
  s

/-! ## Vocabulary of the later claims -/

/-- A field the loops of `register`, `Lookup` and `Dup` pass over: its tag is
exactly `-` or it is not exported. -/
def Skipped {α : Type} (field : Field α) : Prop :=
  field.tag = ['-'] ∨ field.canSet = false

/-- The option a field declares: the tag `parseTag` returns, or the tag made up
from the field name when `parseTag` returns nil; `none` when the tag is
rejected (or no tag can be made up). -/
def declared {α : Type} (toLower : List Char → List Char) (field : Field α) : Option optTag :=
  match parseTag field.tag with
  | some (some o, none) => some o
  | some (none, none) => autoTag (toLower field.name)
  | _ => none

/-- The field declares an option with the name `s`: a non-empty long name equal
to `s`, or a non-zero short name whose one-character string is `s`. -/
def Declares {α : Type} (toLower : List Char → List Char) (field : Field α) (s : List Char) :
    Prop :=
  ∃ o, declared toLower field = some o ∧
    ((o.long ≠ [] ∧ o.long = s) ∨ (o.short ≠ Char.ofNat 0 ∧ [o.short] = s))

/-- The maps and the list agree: every listed option is the entry under its
non-zero short name and under its non-empty long name, and every entry of a
map is a listed option, filed under its own name. -/
def MapsAgree {ν : Type} (s : Set ν) : Prop :=
  (∀ o ∈ s.options,
    (o.short ≠ Char.ofNat 0 → s.shortOptions o.short = some o) ∧
    (o.long ≠ [] → s.longOptions o.long = some o)) ∧
  (∀ k o, s.shortOptions k = some o → k ≠ Char.ofNat 0 ∧ o.short = k ∧ o ∈ s.options) ∧
  (∀ k o, s.longOptions k = some o → k ≠ [] ∧ o.long = k ∧ o ∈ s.options)

/-- No two options of the list share a non-zero short name or a non-empty long
name. -/
def NoSharedName {ν : Type} (l : List (option ν)) : Prop :=
  l.Pairwise fun a b =>
    ¬ (a.short ≠ Char.ofNat 0 ∧ a.short = b.short) ∧ ¬ (a.long ≠ [] ∧ a.long = b.long)

/-! ## Vocabulary of the claims on the loop of `parseTag` -/

/-- The states the loop of `parseTag` passes through on the trimmed tag `tag`:
it starts with the zero `optTag` and `next = tag`, and goes from one state to
the next by a pass that does not return. -/
inductive LoopReaches (tag : List Char) : optTag → List Char → Prop where
  | start : LoopReaches tag {} tag
  | pass {o o2 : optTag} {next next2 : List Char} :
      LoopReaches tag o next → parseStep tag o next = .again o2 next2 →
      LoopReaches tag o2 next2

/-- A tag that is well formed for a declaration: it has a long or a short name;
its long name, when present, does not begin with `-` and has no space and no
`=`; its help text has no leading or trailing white space. -/
def WellFormed (t : optTag) : Prop :=
  (t.long ≠ [] ∨ t.short ≠ Char.ofNat 0) ∧
  (t.long ≠ [] → t.long.head? ≠ some '-' ∧ ' ' ∉ t.long ∧ '=' ∉ t.long) ∧
  Trimmed t.help

/-! ## Lemmas on the library functions -/

theorem index_eq_none {s : List Char} {c : Char} (h : c ∉ s) : index s c = none := by
  induction s with
  | nil => rfl
  | cons x xs ih =>
    simp only [List.mem_cons, not_or] at h
    simp [index, Ne.symm h.1, ih h.2]

theorem index_append {a : List Char} {c : Char} (b : List Char) (h : c ∉ a) :
    index (a ++ c :: b) c = some a.length := by
  induction a with
  | nil => simp [index]
  | cons x xs ih =>
    simp only [List.mem_cons, not_or] at h
    simp [index, Ne.symm h.1, ih h.2]

theorem trimSpace_nil : trimSpace [] = [] := by
  simp [trimSpace]

theorem trimSpace_of_trimmed {s : List Char} (h : Trimmed s) : trimSpace s = s := by
  obtain ⟨h1, h2⟩ := h
  have hd : s.dropWhile isSpace = s := by
    cases s with
    | nil => rfl
    | cons x xs => simp [List.dropWhile_cons, h1 x (by simp)]
  rw [trimSpace, hd, List.rdropWhile_eq_self_iff]
  intro hl
  simp [h2 _ (List.getLast?_eq_getLast _ hl)]

theorem trimSpace_space_append {w s : List Char} (hw : ∀ c ∈ w, isSpace c = true) :
    trimSpace (w ++ s) = trimSpace s := by
  simp [trimSpace, List.dropWhile_append_of_pos hw]

theorem rdropWhile_append_space {w s : List Char} (hw : ∀ c ∈ w, isSpace c = true) :
    (s ++ w).rdropWhile isSpace = s.rdropWhile isSpace := by
  have hr : ∀ c ∈ w.reverse, isSpace c = true := fun c hc => hw c (List.mem_reverse.mp hc)
  simp [List.rdropWhile, List.dropWhile_append_of_pos hr]

theorem trimSpace_append_space {w s : List Char} (hw : ∀ c ∈ w, isSpace c = true) :
    trimSpace (s ++ w) = trimSpace s := by
  unfold trimSpace
  rw [List.dropWhile_append]
  split
  · rename_i he
    have he2 : s.dropWhile isSpace = [] := by simpa using he
    have : w.dropWhile isSpace = [] := by simpa using hw
    rw [this, he2]
  · exact rdropWhile_append_space hw

/-! ## Lemmas on `nextOption` and `argPrefix` -/

theorem nextOption_help {h : List Char} (hh : h.head? ≠ some '-') :
    nextOption h = ([], [], h) := by
  cases h with
  | nil => rfl
  | cons x xs =>
    have : x ≠ '-' := by simpa using hh
    simp [nextOption, this]

theorem nextOption_token {t s : List Char} (ht : ' ' ∉ t) (hs : Sep s) :
    nextOption ('-' :: (t ++ s)) =
      match index ('-' :: t) '=' with
      | some x => (('-' :: t).take x, ('-' :: t).drop (x + 1), trimSpace s)
      | none => ('-' :: t, [], trimSpace s) := by
  have hmem : ' ' ∉ '-' :: t := by simp [ht]
  rcases hs with rfl | hs
  · simp only [nextOption, List.append_nil, index_eq_none hmem, trimSpace_nil]
    simp
  · cases s with
    | nil => simp at hs
    | cons y ys =>
      have hy : y = ' ' := by simpa using hs
      subst hy
      have hi := index_append ys hmem
      simp only [List.cons_append] at hi
      simp only [nextOption, hi]
      simp

theorem nextOption_plain {t s : List Char} (ht : ' ' ∉ t) (he : '=' ∉ t) (hs : Sep s) :
    nextOption ('-' :: (t ++ s)) = ('-' :: t, [], trimSpace s) := by
  have hmem : '=' ∉ '-' :: t := by simp [he]
  rw [nextOption_token ht hs, index_eq_none hmem]

theorem nextOption_param {a p s : List Char} (ha : ' ' ∉ a) (he : '=' ∉ a) (hp : ' ' ∉ p)
    (hs : Sep s) :
    nextOption ('-' :: (a ++ '=' :: (p ++ s))) = ('-' :: a, p, trimSpace s) := by
  have ht : ' ' ∉ a ++ '=' :: p := by simp [ha, hp]
  have hmem : '=' ∉ '-' :: a := by simp [he]
  have hi := index_append p hmem
  have h := nextOption_token ht hs
  simp only [List.append_assoc, List.cons_append] at h hi
  rw [h, hi]
  simp

theorem argPrefix_one {t : List Char} (h : t.head? ≠ some '-') :
    argPrefix ('-' :: t) = ['-'] := by
  cases t with
  | nil => simp [argPrefix]
  | cons x xs =>
    have : x ≠ '-' := by simpa using h
    simp [argPrefix, List.takeWhile_cons, this]

theorem argPrefix_two {t : List Char} (h : t.head? ≠ some '-') :
    argPrefix ('-' :: '-' :: t) = ['-', '-'] := by
  cases t with
  | nil => simp [argPrefix]
  | cons x xs =>
    have : x ≠ '-' := by simpa using h
    simp [argPrefix, List.takeWhile_cons, this]

theorem argPrefix_three (t : List Char) :
    argPrefix ('-' :: '-' :: '-' :: t) ≠ ['-'] ∧ argPrefix ('-' :: '-' :: '-' :: t) ≠ ['-', '-'] := by
  simp [argPrefix, List.takeWhile_cons]

/-! ## Lemmas on one pass of the loop -/

/-- What the loop returns when the next token is empty, `-` or `--` with no
parameter and `next` is what is left. -/
theorem parseStep_help (tag : List Char) (o : optTag) {h : List Char}
    (hh : h.head? ≠ some '-') :
    parseStep tag o h =
      if o.long = [] ∧ o.short = Char.ofNat 0 then
        if h ≠ [] then .done (none, some (.missingOptionName tag)) else .done (none, none)
      else .done (some { o with help := h }, none) := by
  simp [parseStep, nextOption_help hh]

theorem parseStep_dash (tag : List Char) (o : optTag) {s : List Char} (hs : Sep s) :
    parseStep tag o ('-' :: s) =
      if o.long = [] ∧ o.short = Char.ofNat 0 then
        if trimSpace s ≠ [] then .done (none, some (.missingOptionName tag))
        else .done (none, none)
      else .done (some { o with help := trimSpace s }, none) := by
  have h := nextOption_plain (t := []) (s := s) (by simp) (by simp) hs
  simp only [List.nil_append] at h
  simp [parseStep, h]

theorem parseStep_dashdash (tag : List Char) (o : optTag) {s : List Char} (hs : Sep s) :
    parseStep tag o ('-' :: '-' :: s) =
      if o.long = [] ∧ o.short = Char.ofNat 0 then
        if trimSpace s ≠ [] then .done (none, some (.missingOptionName tag))
        else .done (none, none)
      else .done (some { o with help := trimSpace s }, none) := by
  have h := nextOption_plain (t := ['-']) (s := s) (by simp) (by simp) hs
  simp only [List.cons_append, List.nil_append] at h
  simp [parseStep, h]

theorem parseStep_long (tag : List Char) (o : optTag) {l s : List Char} (hl : ValidLong l)
    (hs : Sep s) :
    parseStep tag o ('-' :: '-' :: (l ++ s)) =
      if o.long ≠ [] then .done (none, some (.tooManyLong tag))
      else .again { o with long := l } (trimSpace s) := by
  obtain ⟨h0, h1, h2, h3⟩ := hl
  have h := nextOption_plain (t := '-' :: l) (s := s) (by simp [h1]) (by simp [h2]) hs
  simp only [List.cons_append] at h
  simp [parseStep, h, argPrefix_two h3, h0]

theorem parseStep_long_param (tag : List Char) (o : optTag) {l p s : List Char}
    (hl : ValidLong l) (hp0 : p ≠ []) (hp : ' ' ∉ p) (hs : Sep s) :
    parseStep tag o ('-' :: '-' :: (l ++ '=' :: (p ++ s))) =
      if o.param ≠ [] then .done (none, some (.multipleParams tag))
      else if o.long ≠ [] then .done (none, some (.tooManyLong tag))
      else .again { o with param := p, long := l } (trimSpace s) := by
  obtain ⟨h0, h1, h2, h3⟩ := hl
  have h := nextOption_param (a := '-' :: l) (p := p) (s := s) (by simp [h1]) (by simp [h2]) hp hs
  simp only [List.cons_append] at h
  simp [parseStep, h, argPrefix_two h3, h0, hp0]

theorem parseStep_short (tag : List Char) (o : optTag) {c : Char} {s : List Char}
    (hc : ValidShort c) (hs : Sep s) :
    parseStep tag o ('-' :: c :: s) =
      if o.short ≠ Char.ofNat 0 then .done (none, some (.tooManyShort tag))
      else .again { o with short := c } (trimSpace s) := by
  obtain ⟨h0, h1, h2, _⟩ := hc
  have h := nextOption_plain (t := [c]) (s := s) (by simp [Ne.symm h2]) (by simp [Ne.symm h1]) hs
  simp only [List.cons_append, List.nil_append] at h
  have hp : argPrefix ['-', c] = ['-'] := argPrefix_one (by simp [h0])
  simp [parseStep, h, hp, h0]

theorem parseStep_short_param (tag : List Char) (o : optTag) {c : Char} {p s : List Char}
    (hc : ValidShort c) (hp0 : p ≠ []) (hp : ' ' ∉ p) (hs : Sep s) :
    parseStep tag o ('-' :: c :: '=' :: (p ++ s)) =
      if o.param ≠ [] then .done (none, some (.multipleParams tag))
      else if o.short ≠ Char.ofNat 0 then .done (none, some (.tooManyShort tag))
      else .again { o with param := p, short := c } (trimSpace s) := by
  obtain ⟨h0, h1, h2, _⟩ := hc
  have h := nextOption_param (a := [c]) (p := p) (s := s) (by simp [Ne.symm h2])
    (by simp [Ne.symm h1]) hp hs
  simp only [List.cons_append, List.nil_append] at h
  have hq : argPrefix ['-', c] = ['-'] := argPrefix_one (by simp [h0])
  simp [parseStep, h, hq, h0, hp0]

/-! ## The loop: more passes change nothing, `length + 1` passes suffice -/

theorem parseLoop_done {tag : List Char} {o : optTag} {next : List Char} {r : TagResult}
    (n : Nat) (h : parseStep tag o next = .done r) :
    parseLoop (n + 1) tag o next = some r := by
  simp [parseLoop, h]

theorem parseLoop_again {tag : List Char} {o o2 : optTag} {next next2 : List Char}
    (n : Nat) (h : parseStep tag o next = .again o2 next2) :
    parseLoop (n + 1) tag o next = parseLoop n tag o2 next2 := by
  simp [parseLoop, h]

theorem parseLoop_mono {tag : List Char} {r : TagResult} :
    ∀ (n : Nat) (o : optTag) (next : List Char), parseLoop n tag o next = some r →
      ∀ m, n ≤ m → parseLoop m tag o next = some r := by
  intro n
  induction n with
  | zero => intro o next h; simp [parseLoop] at h
  | succ n ih =>
    intro o next h m hm
    obtain ⟨k, rfl⟩ : ∃ k, m = k + 1 := ⟨m - 1, by omega⟩
    cases hstep : parseStep tag o next with
    | done r2 =>
      rw [parseLoop_done n hstep] at h
      rw [parseLoop_done k hstep, ← h]
    | again o2 next2 =>
      rw [parseLoop_again n hstep] at h
      rw [parseLoop_again k hstep]
      exact ih o2 next2 h k (by omega)

theorem index_lt {s : List Char} {c : Char} {x : Nat} (h : index s c = some x) :
    x < s.length := by
  induction s generalizing x with
  | nil => simp [index] at h
  | cons y ys ih =>
    simp only [index] at h
    split at h
    · simp at h; subst h; simp
    · cases hi : index ys c with
      | none => simp [hi] at h
      | some z =>
        simp [hi] at h
        subst h
        simpa using ih hi

theorem index_pos {y : Char} {ys : List Char} {c : Char} {x : Nat} (hy : y ≠ c)
    (h : index (y :: ys) c = some x) : 0 < x := by
  simp only [index, hy, if_false] at h
  cases hi : index ys c with
  | none => simp [hi] at h
  | some z => simp [hi] at h; omega

theorem trimSpace_length_le (s : List Char) : (trimSpace s).length ≤ s.length :=
  le_trans (List.rdropWhile_prefix isSpace _).length_le (List.dropWhile_suffix isSpace).length_le

theorem nextOption_rest (t : List Char) :
    (nextOption ('-' :: t)).2.2 =
      match index ('-' :: t) ' ' with
      | some x => trimSpace (('-' :: t).drop x)
      | none => [] := by
  cases hi : index ('-' :: t) ' ' with
  | none =>
    simp only [nextOption, hi]
    cases index ('-' :: t) '=' <;> simp
  | some x =>
    simp only [nextOption, hi]
    cases index (('-' :: t).take x) '=' <;> simp

theorem nextOption_arg_nil {s : List Char} (h : s.head? ≠ some '-') :
    (nextOption s).1 = [] := by
  rw [nextOption_help h]

/-- The rest `nextOption` returns is strictly shorter than its argument whenever
the option it returns is not empty. -/
theorem nextOption_shorter {s arg param rest : List Char}
    (h : nextOption s = (arg, param, rest)) (ha : arg ≠ []) : rest.length < s.length := by
  by_cases hd : s.head? = some '-'
  · cases s with
    | nil => simp at hd
    | cons c t =>
      have hc : c = '-' := by simpa using hd
      subst hc
      have hr : rest = (nextOption ('-' :: t)).2.2 := by rw [h]
      rw [nextOption_rest] at hr
      cases hi : index ('-' :: t) ' ' with
      | none => rw [hi] at hr; subst hr; simp
      | some x =>
        rw [hi] at hr
        subst hr
        have hx : 0 < x := index_pos (by decide) hi
        refine lt_of_le_of_lt (trimSpace_length_le _) ?_
        simp only [List.length_drop, List.length_cons]
        omega
  · have := nextOption_arg_nil hd
    rw [h] at this
    exact absurd this ha

theorem parseStep_again_shorter {tag : List Char} {o o2 : optTag} {next next2 : List Char}
    (h : parseStep tag o next = .again o2 next2) : next2.length < next.length := by
  obtain ⟨arg, param, rest, hn⟩ : ∃ arg param rest, nextOption next = (arg, param, rest) :=
    ⟨_, _, _, rfl⟩
  by_cases hterm : arg = [] ∨ arg = ['-'] ∨ arg = ['-', '-']
  · simp only [parseStep, hn, hterm, if_true] at h
    split_ifs at h
  · have ha : arg ≠ [] := fun h0 => hterm (Or.inl h0)
    have hlt := nextOption_shorter hn ha
    simp only [parseStep, hn, hterm, if_false] at h
    split_ifs at h <;> (try split at h) <;> simp at h <;> (rw [← h.2]; exact hlt)

/-- The loop returns within `next.length + 1` passes. -/
theorem parseLoop_returns (tag : List Char) :
    ∀ (n : Nat) (o : optTag) (next : List Char), next.length < n →
      ∃ r, parseLoop n tag o next = some r := by
  intro n
  induction n with
  | zero => intro o next h; omega
  | succ n ih =>
    intro o next hlen
    cases hstep : parseStep tag o next with
    | done r => exact ⟨r, parseLoop_done n hstep⟩
    | again o2 next2 =>
      have := parseStep_again_shorter hstep
      rw [parseLoop_again n hstep]
      exact ih o2 next2 (by omega)

/-- A result the loop reaches with some number of passes is the result it
reaches with `next.length + 1` passes. -/
theorem parseLoop_fuel {tag : List Char} {o : optTag} {next : List Char} {r : TagResult}
    {n : Nat} (h : parseLoop n tag o next = some r) :
    parseLoop (next.length + 1) tag o next = some r := by
  obtain ⟨r2, h2⟩ := parseLoop_returns tag (next.length + 1) o next (by omega)
  have a := parseLoop_mono n o next h (max n (next.length + 1)) (le_max_left _ _)
  have b := parseLoop_mono _ o next h2 (max n (next.length + 1)) (le_max_right _ _)
  rw [h2, ← Option.some.inj (a.symm.trans b)]

/-- How `parseTag` is computed on a tag whose trimmed form is known. -/
theorem parseTag_of_loop {t tag : List Char} {r : TagResult} {n : Nat}
    (ht : trimSpace t = tag) (h0 : tag ≠ []) (h : parseLoop n tag {} tag = some r) :
    parseTag t = some r := by
  simp only [parseTag, ht, h0, if_false]
  exact parseLoop_fuel h

/-- The value of `parseTag` when the first pass of the loop returns. -/
theorem parseTag_first_step {t tag : List Char} {r : TagResult}
    (ht : trimSpace t = tag) (h0 : tag ≠ []) (h : parseStep tag {} tag = .done r) :
    parseTag t = some r :=
  parseTag_of_loop (n := 1) ht h0 (parseLoop_done 0 h)

/-! ## Trimming the tags of the claims -/

theorem sep_cons_space (r : List Char) : Sep (' ' :: r) := Or.inr rfl

theorem sep_sepHelp (h : List Char) : Sep (sepHelp h) := by
  unfold sepHelp
  split
  · exact Or.inl rfl
  · exact Or.inr rfl

theorem trimSpace_cons_space (r : List Char) : trimSpace (' ' :: r) = trimSpace r :=
  trimSpace_space_append (w := [' ']) (s := r) (by simp; decide)

theorem trimSpace_sepHelp {h : List Char} (hh : Trimmed h) : trimSpace (sepHelp h) = h := by
  unfold sepHelp
  split
  · rename_i h0; rw [h0]; exact trimSpace_nil
  · rw [trimSpace_cons_space, trimSpace_of_trimmed hh]

/-- The trimmed form of a tag `b ++ " " ++ h`. -/
theorem trimmed_tag {b h : List Char} {x : Char} (hx : b.head? = some x)
    (hxs : isSpace x = false) (hh : Trimmed h)
    (hlast : h = [] → ∀ c, b.getLast? = some c → isSpace c = false) :
    trimSpace (b ++ ' ' :: h) = b ++ sepHelp h ∧ Trimmed (b ++ sepHelp h) := by
  have hb0 : b ≠ [] := by intro h0; simp [h0] at hx
  have htr : Trimmed (b ++ sepHelp h) := by
    constructor
    · intro c hc
      rw [List.head?_append, hx] at hc
      simp at hc
      rw [← hc]; exact hxs
    · intro c hc
      unfold sepHelp at hc
      split at hc
      · rename_i h0
        rw [List.append_nil] at hc
        exact hlast h0 c hc
      · rename_i h0
        rw [List.getLast?_append_of_ne_nil _ (by simp)] at hc
        have : (' ' :: h).getLast? = h.getLast? := by
          cases h with
          | nil => exact absurd rfl h0
          | cons y ys => simp
        rw [this] at hc
        exact hh.2 c hc
  refine ⟨?_, htr⟩
  by_cases h0 : h = []
  · subst h0
    have e : trimSpace (b ++ [' ']) = trimSpace b :=
      trimSpace_append_space (w := [' ']) (s := b) (by simp; decide)
    have hb : Trimmed b := by simpa [sepHelp] using htr
    simp [sepHelp, e, trimSpace_of_trimmed hb]
  · have e : b ++ sepHelp h = b ++ ' ' :: h := by simp [sepHelp, h0]
    rw [← e]
    exact trimSpace_of_trimmed htr

/-- A suffix of a trimmed string that starts with a dash is trimmed. -/
theorem trimmed_suffix {a r : List Char} (h : Trimmed (a ++ '-' :: r)) : Trimmed ('-' :: r) := by
  constructor
  · intro c hc
    simp at hc
    rw [← hc]; decide
  · intro c hc
    apply h.2 c
    rw [List.getLast?_append_of_ne_nil _ (by simp)]
    exact hc

/-- The rest `nextOption` trims, when it is a space and a later token of a
trimmed tag. -/
theorem trimSpace_rest {a r : List Char} (h : Trimmed (a ++ ' ' :: '-' :: r)) :
    trimSpace (' ' :: '-' :: r) = '-' :: r := by
  rw [trimSpace_cons_space]
  apply trimSpace_of_trimmed
  have e : a ++ ' ' :: '-' :: r = (a ++ [' ']) ++ '-' :: r := by simp
  rw [e] at h
  exact trimmed_suffix h

/-! ## What `strings.TrimSpace` leaves and what it removes -/

theorem rdropWhile_append_rtakeWhile (p : Char → Bool) (l : List Char) :
    l.rdropWhile p ++ l.rtakeWhile p = l := by
  unfold List.rdropWhile List.rtakeWhile
  rw [← List.reverse_append, List.takeWhile_append_dropWhile, List.reverse_reverse]

theorem rdropWhile_cons_of_neg {p : Char → Bool} {x : Char} (l : List Char) (h : p x = false) :
    (x :: l).rdropWhile p = x :: l.rdropWhile p := by
  simp only [List.rdropWhile, List.reverse_cons, List.dropWhile_append]
  split <;> simp_all [List.dropWhile_cons]

theorem trimmed_trimSpace (s : List Char) : Trimmed (trimSpace s) := by
  constructor
  · intro c hc
    unfold trimSpace at hc
    obtain ⟨w, hw⟩ := List.rdropWhile_prefix isSpace (s.dropWhile isSpace)
    have hne : (s.dropWhile isSpace).rdropWhile isSpace ≠ [] := by
      intro h0; simp [h0] at hc
    have hc2 : (s.dropWhile isSpace).head? = some c := by
      rw [← hw, List.head?_append, hc]; rfl
    have := List.head?_dropWhile_not isSpace s
    rw [hc2] at this
    simpa using this
  · intro c hc
    unfold trimSpace at hc
    have hne : (s.dropWhile isSpace).rdropWhile isSpace ≠ [] := by
      intro h0; simp [h0] at hc
    have := List.rdropWhile_last_not isSpace (s.dropWhile isSpace) hne
    rw [List.getLast?_eq_getLast _ hne] at hc
    rw [← Option.some.inj hc]
    simpa using this

/-- A string is white space, its trimmed form, and white space again. -/
theorem trimSpace_decomp (s : List Char) :
    ∃ w1 w2, (∀ c ∈ w1, isSpace c = true) ∧ (∀ c ∈ w2, isSpace c = true) ∧
      s = w1 ++ (trimSpace s ++ w2) := by
  refine ⟨s.takeWhile isSpace, (s.dropWhile isSpace).rtakeWhile isSpace, ?_, ?_, ?_⟩
  · intro c hc; exact List.mem_takeWhile_imp hc
  · intro c hc; exact List.mem_rtakeWhile_imp hc
  · unfold trimSpace
    rw [rdropWhile_append_rtakeWhile, List.takeWhile_append_dropWhile]

theorem trimSpace_eq_nil_iff {s : List Char} : trimSpace s = [] ↔ ∀ c ∈ s, isSpace c = true := by
  constructor
  · intro h c hc
    obtain ⟨w1, w2, h1, h2, e⟩ := trimSpace_decomp s
    rw [h, List.nil_append] at e
    rw [e] at hc
    rcases List.mem_append.mp hc with hc | hc
    · exact h1 c hc
    · exact h2 c hc
  · intro h
    have : s.dropWhile isSpace = [] := by simpa using h
    simp [trimSpace, this]

theorem trimSpace_idem (s : List Char) : trimSpace (trimSpace s) = trimSpace s :=
  trimSpace_of_trimmed (trimmed_trimSpace s)

/-! ## `nextOption` by `takeWhile` and `dropWhile` -/

theorem index_split (s : List Char) (c : Char) :
    (match index s c with
      | some x => (s.take x, s.drop x)
      | none => (s, [])) = (s.takeWhile (· != c), s.dropWhile (· != c)) := by
  induction s with
  | nil => simp [index]
  | cons y ys ih =>
    by_cases hy : y = c
    · simp [index, hy, List.takeWhile_cons, List.dropWhile_cons]
    · cases hi : index ys c with
      | none =>
        rw [hi] at ih
        simp only [Prod.mk.injEq] at ih
        simp [index, hy, hi, List.takeWhile_cons, List.dropWhile_cons, ← ih.1, ← ih.2]
      | some x =>
        rw [hi] at ih
        simp only [Prod.mk.injEq] at ih
        simp [index, hy, hi, List.takeWhile_cons, List.dropWhile_cons, ← ih.1, ← ih.2]

/-- The function `nextOption` on a string that starts with a dash: the token runs
up to the first space, the option up to the first `=` of the token. -/
theorem nextOption_eq (t : List Char) :
    nextOption ('-' :: t) =
      ((('-' :: t).takeWhile (· != ' ')).takeWhile (· != '='),
       ((('-' :: t).takeWhile (· != ' ')).dropWhile (· != '=')).drop 1,
       trimSpace (('-' :: t).dropWhile (· != ' '))) := by
  have h1 := index_split ('-' :: t) ' '
  have h2 := index_split (('-' :: t).takeWhile (· != ' ')) '='
  cases hi : index ('-' :: t) ' ' with
  | none =>
    rw [hi] at h1
    simp only [Prod.mk.injEq] at h1
    rw [← h1.1] at h2 ⊢
    rw [← h1.2]
    cases hj : index ('-' :: t) '=' with
    | none =>
      rw [hj] at h2
      simp only [Prod.mk.injEq] at h2
      simp [nextOption, hi, hj, ← h2.1, ← h2.2, trimSpace_nil]
    | some y =>
      rw [hj] at h2
      simp only [Prod.mk.injEq] at h2
      simp [nextOption, hi, hj, ← h2.1, ← h2.2, trimSpace_nil]
  | some x =>
    rw [hi] at h1
    simp only [Prod.mk.injEq] at h1
    rw [← h1.1] at h2 ⊢
    rw [← h1.2]
    cases hj : index (('-' :: t).take x) '=' with
    | none =>
      rw [hj] at h2
      simp only [Prod.mk.injEq] at h2
      simp [nextOption, hi, hj, ← h2.1, ← h2.2]
    | some y =>
      rw [hj] at h2
      simp only [Prod.mk.injEq] at h2
      simp [nextOption, hi, hj, ← h2.1, ← h2.2]

/-! ## The error messages -/

theorem contains_tripleDash (quote : List Char → List Char) (t : List Char) :
    Contains ((TagError.tripleDash t).message quote) "must not start with ---".toList :=
  ⟨"getopt tag ".toList, ": ".toList ++ quote t, by simp [TagError.message]⟩

theorem contains_missingOptionName (quote : List Char → List Char) (t : List Char) :
    Contains ((TagError.missingOptionName t).message quote) "missing option name".toList :=
  ⟨"getopt tag ".toList, ": ".toList ++ quote t, by simp [TagError.message]⟩

theorem contains_tooManyLong (quote : List Char → List Char) (t : List Char) :
    Contains ((TagError.tooManyLong t).message quote) "too many long names".toList :=
  ⟨"getopt tag has ".toList, ": ".toList ++ quote t, by simp [TagError.message]⟩

theorem contains_tooManyShort (quote : List Char → List Char) (t : List Char) :
    Contains ((TagError.tooManyShort t).message quote) "too many short names".toList :=
  ⟨"getopt tag has ".toList, ": ".toList ++ quote t, by simp [TagError.message]⟩

theorem contains_multipleParams (quote : List Char → List Char) (t : List Char) :
    Contains ((TagError.multipleParams t).message quote) "multiple parameter names".toList :=
  ⟨"getopt tag has ".toList, ": ".toList ++ quote t, by simp [TagError.message]⟩

theorem parseStep_triple (tag r : List Char) :
    parseStep tag {} ('-' :: '-' :: '-' :: r) = .done (none, some (.tripleDash tag)) := by
  simp [parseStep, nextOption_eq, List.takeWhile_cons, argPrefix]

/-! ## More on trimming and on single passes -/

theorem trimmed_cons_append {x : Char} {a m : List Char} (hx : isSpace x = false)
    (hm : ∀ c, m.getLast? = some c → isSpace c = false) (hm0 : m ≠ []) :
    Trimmed (x :: (a ++ m)) := by
  constructor
  · intro c hc
    simp at hc
    rw [← hc]; exact hx
  · intro c hc
    have e : x :: (a ++ m) = (x :: a) ++ m := by simp
    rw [e, List.getLast?_append_of_ne_nil _ hm0] at hc
    exact hm c hc

theorem parseStep_dash_param (tag : List Char) (o : optTag) {x s : List Char}
    (hx0 : x ≠ []) (hx : ' ' ∉ x) (hs : Sep s) :
    parseStep tag o ('-' :: '=' :: (x ++ s)) = .done (none, some (.missingOptionName tag)) := by
  have h := nextOption_param (a := []) (p := x) (s := s) (by simp) (by simp) hx hs
  simp only [List.nil_append] at h
  simp [parseStep, h, hx0]

theorem parseStep_dashdash_param (tag : List Char) (o : optTag) {x s : List Char}
    (hx0 : x ≠ []) (hx : ' ' ∉ x) (hs : Sep s) :
    parseStep tag o ('-' :: '-' :: '=' :: (x ++ s))
      = .done (none, some (.missingOptionName tag)) := by
  have h := nextOption_param (a := ['-']) (p := x) (s := s) (by simp) (by simp) hx hs
  simp only [List.cons_append, List.nil_append] at h
  simp [parseStep, h, hx0]

/-- The tags `"- T"` and `"-- T"` where `T` has a character that is not white
space: what is left after the terminator is not empty. -/
theorem parseTag_dash_text (d t : List Char) (hd : d = ['-'] ∨ d = ['-', '-'])
    (ht : ∃ c ∈ t, isSpace c = false) :
    failsWith (parseTag (d ++ ' ' :: t)) "missing option name".toList := by
  have hm0 : trimSpace t ≠ [] := by
    intro h0
    obtain ⟨c, hc, hcs⟩ := ht
    have := trimSpace_eq_nil_iff.mp h0 c hc
    simp [hcs] at this
  obtain ⟨w1, w2, h1, h2, e⟩ := trimSpace_decomp t
  have hsp : isSpace ' ' = true := by decide
  have hdash : isSpace '-' = false := by decide
  have hrest : trimSpace (' ' :: (w1 ++ trimSpace t)) = trimSpace t := by
    rw [trimSpace_cons_space, trimSpace_space_append h1, trimSpace_idem]
  rcases hd with rfl | rfl
  · have htr : Trimmed ('-' :: ([' '] ++ w1 ++ trimSpace t)) :=
      trimmed_cons_append hdash (trimmed_trimSpace t).2 hm0
    have hform : ['-'] ++ ' ' :: t = ('-' :: ([' '] ++ w1 ++ trimSpace t)) ++ w2 := by
      conv_lhs => rw [e]
      simp
    have htag : trimSpace (['-'] ++ ' ' :: t) = '-' :: ' ' :: (w1 ++ trimSpace t) := by
      rw [hform, trimSpace_append_space h2, trimSpace_of_trimmed htr]
      simp
    refine ⟨.missingOptionName ('-' :: ' ' :: (w1 ++ trimSpace t)), ?_,
      fun q => contains_missingOptionName q _⟩
    refine parseTag_first_step htag (by simp) ?_
    rw [parseStep_dash _ _ (sep_cons_space _), hrest]
    simp [hm0]
  · have htr : Trimmed ('-' :: (['-', ' '] ++ w1 ++ trimSpace t)) :=
      trimmed_cons_append hdash (trimmed_trimSpace t).2 hm0
    have hform : ['-', '-'] ++ ' ' :: t = ('-' :: (['-', ' '] ++ w1 ++ trimSpace t)) ++ w2 := by
      conv_lhs => rw [e]
      simp
    have htag : trimSpace (['-', '-'] ++ ' ' :: t) = '-' :: '-' :: ' ' :: (w1 ++ trimSpace t) := by
      rw [hform, trimSpace_append_space h2, trimSpace_of_trimmed htr]
      simp
    refine ⟨.missingOptionName ('-' :: '-' :: ' ' :: (w1 ++ trimSpace t)), ?_,
      fun q => contains_missingOptionName q _⟩
    refine parseTag_first_step htag (by simp) ?_
    rw [parseStep_dashdash _ _ (sep_cons_space _), hrest]
    simp [hm0]

/-- A string with a character that is not white space: what is left of it when
the trailing white space is dropped, and the white space dropped. -/
theorem rtrim_decomp {l : List Char} (h : ∃ c ∈ l, isSpace c = false) :
    ∃ m w, l = m ++ w ∧ m ≠ [] ∧ (∀ c ∈ w, isSpace c = true) ∧
      (∀ c, m.getLast? = some c → isSpace c = false) ∧ (∀ c ∈ m, c ∈ l) ∧
      m.head? = l.head? := by
  have hne : l.rdropWhile isSpace ≠ [] := by
    intro h0
    obtain ⟨c, hc, hcs⟩ := h
    have := List.rdropWhile_eq_nil_iff.mp h0 c hc
    simp [hcs] at this
  have e := rdropWhile_append_rtakeWhile isSpace l
  refine ⟨l.rdropWhile isSpace, l.rtakeWhile isSpace, e.symm, hne, ?_, ?_, ?_, ?_⟩
  · intro c hc; exact List.mem_rtakeWhile_imp hc
  · intro c hc
    have := List.rdropWhile_last_not isSpace l hne
    rw [List.getLast?_eq_getLast _ hne] at hc
    rw [← Option.some.inj hc]
    simpa using this
  · intro c hc
    exact (List.rdropWhile_prefix isSpace l).subset hc
  · cases hm : l.rdropWhile isSpace with
    | nil => exact absurd hm hne
    | cons y ys =>
      rw [hm] at e
      rw [← e]
      rfl

theorem parseStep_token_param_first (tag : List Char) {t p s : List Char}
    (ht : IsOptionToken t) (hp0 : p ≠ []) (hp : ' ' ∉ p) (hs : Sep s) :
    ∃ o1 : optTag, o1.param = p ∧
      parseStep tag {} (t ++ '=' :: (p ++ s)) = .again o1 (trimSpace s) := by
  rcases ht with ⟨l, hl, rfl⟩ | ⟨c, hc, rfl⟩
  · refine ⟨{ long := l, param := p }, rfl, ?_⟩
    have h := parseStep_long_param tag {} hl hp0 hp hs
    simpa using h
  · refine ⟨{ short := c, param := p }, rfl, ?_⟩
    have h := parseStep_short_param tag {} hc hp0 hp hs
    simpa using h

theorem parseStep_token_param_second (tag : List Char) (o : optTag) {t p s : List Char}
    (ht : IsOptionToken t) (hp0 : p ≠ []) (hp : ' ' ∉ p) (hs : Sep s) (ho : o.param ≠ []) :
    parseStep tag o (t ++ '=' :: (p ++ s)) = .done (none, some (.multipleParams tag)) := by
  rcases ht with ⟨l, hl, rfl⟩ | ⟨c, hc, rfl⟩
  · have h := parseStep_long_param tag o hl hp0 hp hs
    simpa [ho] using h
  · have h := parseStep_short_param tag o hc hp0 hp hs
    simpa [ho] using h

theorem isOptionToken_cons {t : List Char} (ht : IsOptionToken t) : ∃ r, t = '-' :: r := by
  rcases ht with ⟨l, _, rfl⟩ | ⟨c, _, rfl⟩
  · exact ⟨_, rfl⟩
  · exact ⟨_, rfl⟩

/-! ## Runs of the loop shared by several claims -/

/-- The loop on the trimmed tag `--L=P -c --` and a help text. -/
theorem parseLoop_long_param_short (L P H : List Char) (c : Char) (hL : ValidLong L)
    (hc : ValidShort c) (hP0 : P ≠ []) (hP : ' ' ∉ P) (hH : Trimmed H)
    (htr : Trimmed
      ('-' :: '-' :: (L ++ '=' :: (P ++ ' ' :: '-' :: c :: ' ' :: '-' :: '-' :: sepHelp H)))) :
    parseLoop 3
        ('-' :: '-' :: (L ++ '=' :: (P ++ ' ' :: '-' :: c :: ' ' :: '-' :: '-' :: sepHelp H))) {}
        ('-' :: '-' :: (L ++ '=' :: (P ++ ' ' :: '-' :: c :: ' ' :: '-' :: '-' :: sepHelp H)))
      = some (some { long := L, short := c, param := P, help := H }, none) := by
  have r1 : trimSpace (' ' :: '-' :: c :: ' ' :: '-' :: '-' :: sepHelp H)
      = '-' :: c :: ' ' :: '-' :: '-' :: sepHelp H :=
    trimSpace_rest (a := '-' :: '-' :: (L ++ '=' :: P)) (by simpa using htr)
  have r2 : trimSpace (' ' :: '-' :: '-' :: sepHelp H) = '-' :: '-' :: sepHelp H :=
    trimSpace_rest (a := '-' :: '-' :: (L ++ '=' :: (P ++ [' ', '-', c]))) (by simpa using htr)
  simp [parseLoop, parseStep_long_param _ _ hL hP0 hP (sep_cons_space _), r1,
    parseStep_short _ _ hc (sep_cons_space _), r2, parseStep_dashdash _ _ (sep_sepHelp H),
    trimSpace_sepHelp hH, hL.1]

/-- The loop on the trimmed tag `--L -c=P --` and a help text. -/
theorem parseLoop_long_short_param (L P H : List Char) (c : Char) (hL : ValidLong L)
    (hc : ValidShort c) (hP0 : P ≠ []) (hP : ' ' ∉ P) (hH : Trimmed H)
    (htr : Trimmed
      ('-' :: '-' :: (L ++ ' ' :: '-' :: c :: '=' :: (P ++ ' ' :: '-' :: '-' :: sepHelp H)))) :
    parseLoop 3
        ('-' :: '-' :: (L ++ ' ' :: '-' :: c :: '=' :: (P ++ ' ' :: '-' :: '-' :: sepHelp H))) {}
        ('-' :: '-' :: (L ++ ' ' :: '-' :: c :: '=' :: (P ++ ' ' :: '-' :: '-' :: sepHelp H)))
      = some (some { long := L, short := c, param := P, help := H }, none) := by
  have r1 : trimSpace (' ' :: '-' :: c :: '=' :: (P ++ ' ' :: '-' :: '-' :: sepHelp H))
      = '-' :: c :: '=' :: (P ++ ' ' :: '-' :: '-' :: sepHelp H) :=
    trimSpace_rest (a := '-' :: '-' :: L) (by simpa using htr)
  have r2 : trimSpace (' ' :: '-' :: '-' :: sepHelp H) = '-' :: '-' :: sepHelp H :=
    trimSpace_rest (a := '-' :: '-' :: (L ++ ' ' :: '-' :: c :: '=' :: P)) (by simpa using htr)
  simp [parseLoop, parseStep_long _ _ hL (sep_cons_space _), r1,
    parseStep_short_param _ _ hc hP0 hP (sep_cons_space _), r2,
    parseStep_dashdash _ _ (sep_sepHelp H), trimSpace_sepHelp hH, hL.1, hc.2.2.2]

/-- The last character of a string that ends in a dash is not white space. -/
theorem last_dash {l : List Char} (d : Char) (hd : (l ++ ['-']).getLast? = some d) :
    isSpace d = false := by
  rw [List.getLast?_concat] at hd
  rw [← Option.some.inj hd]; decide

/-! ## The claims -/

/-- C1. For every valid long name `L`, valid short name `c`, non-empty
space-free parameter name `P` and help text `H` with no leading or trailing
white space, `parseTag("--L=P -c -- H")` returns no error and the tag
`{long: L, short: c, param: P, help: H}`. -/
theorem parseTag_everything (L P H : List Char) (c : Char) (hL : ValidLong L)
    (hc : ValidShort c) (hP0 : P ≠ []) (hP : ' ' ∉ P) (hH : Trimmed H) :
    parseTag ("--".toList ++ L ++ "=".toList ++ P ++ " -".toList ++ [c] ++ " -- ".toList ++ H)
      = some (some { long := L, short := c, param := P, help := H }, none) := by
  have hform : "--".toList ++ L ++ "=".toList ++ P ++ " -".toList ++ [c] ++ " -- ".toList ++ H
      = ('-' :: '-' :: (L ++ '=' :: (P ++ [' ', '-', c, ' ', '-', '-']))) ++ ' ' :: H := by
    simp
  obtain ⟨ht, htr⟩ := trimmed_tag (b := '-' :: '-' :: (L ++ '=' :: (P ++ [' ', '-', c, ' ', '-', '-'])))
    (h := H) (x := '-') rfl (by decide) hH (by
      intro _ d hd
      have e : '-' :: '-' :: (L ++ '=' :: (P ++ [' ', '-', c, ' ', '-', '-']))
          = ('-' :: '-' :: (L ++ '=' :: (P ++ [' ', '-', c, ' ', '-']))) ++ ['-'] := by simp
      rw [e, List.getLast?_concat] at hd
      rw [← Option.some.inj hd]; decide)
  rw [hform]
  have e : ('-' :: '-' :: (L ++ '=' :: (P ++ [' ', '-', c, ' ', '-', '-']))) ++ sepHelp H
      = '-' :: '-' :: (L ++ '=' :: (P ++ ' ' :: '-' :: c :: ' ' :: '-' :: '-' :: sepHelp H)) := by
    simp
  rw [e] at ht htr
  exact parseTag_of_loop ht (by simp) (parseLoop_long_param_short L P H c hL hc hP0 hP hH htr)

theorem parseTag_everything_witness :
    parseTag "--option=PARAM -o -- - this is help".toList
      = some (some ⟨"option".toList, 'o', "PARAM".toList, "- this is help".toList⟩, none) :=
  parseTag_everything "option".toList "PARAM".toList "- this is help".toList 'o'
    (by simp [ValidLong]) (by simp [ValidShort]) (by simp) (by simp)
    (by simp [Trimmed]; decide)

/-- C2. On a pointer to a struct whose one exported field `Name` has the tag
`---name`, which `parseTag` rejects, `Validate` and `RegisterSet` do not
return the error of `parseTag`: `register` panics with it. -/
theorem register_panics_on_rejected_tag {σ : Type} (toLower : List Char → List Char)
    (flagLong : σ → FlagLongCall Unit → Option σ) (set : σ) :
    parseTag "---name".toList = some (none, some (.tripleDash "---name".toList)) ∧
    Validate toLower flagLong set
        (.ptrToStruct [⟨"Name".toList, "---name".toList, true, ()⟩])
      = .panicked (.tripleDash "---name".toList) ∧
    RegisterSet toLower flagLong
        (.ptrToStruct [⟨"Name".toList, "---name".toList, true, ()⟩]) set
      = .panicked (.tripleDash "---name".toList) := by
  refine ⟨by decide, rfl, rfl⟩

/-- C3. On the tag `"--name\thelp"`, where a tab stands between the option and
the description, `parseTag` does not split at the tab: it returns the long
name `"name\thelp"` and no help text. -/
theorem parseTag_tab_not_delimiter :
    parseTag "--name\thelp".toList = some (some { long := "name\thelp".toList }, none) := by
  decide

/-- C4. For every valid long name `L` and help text `H` with no leading or
trailing white space, `parseTag("--L -- H")` and `parseTag("--L - H")` both
return `{long: L, help: H}`, also when `H` begins with `-`; and when `H` is
non-empty and does not begin with `-`, `parseTag("--L H")` returns the same. -/
theorem parseTag_terminator (L H : List Char) (hL : ValidLong L) (hH : Trimmed H) :
    parseTag ("--".toList ++ L ++ " -- ".toList ++ H)
      = some (some { long := L, help := H }, none) ∧
    parseTag ("--".toList ++ L ++ " - ".toList ++ H)
      = some (some { long := L, help := H }, none) ∧
    (H ≠ [] → H.head? ≠ some '-' →
      parseTag ("--".toList ++ L ++ " ".toList ++ H)
        = some (some { long := L, help := H }, none)) := by
  refine ⟨?_, ?_, ?_⟩
  · have hform : "--".toList ++ L ++ " -- ".toList ++ H
        = ('-' :: '-' :: (L ++ [' ', '-', '-'])) ++ ' ' :: H := by simp
    obtain ⟨ht, htr⟩ := trimmed_tag (b := '-' :: '-' :: (L ++ [' ', '-', '-']))
      (h := H) (x := '-') rfl (by decide) hH (by
        intro _ d hd
        have e : '-' :: '-' :: (L ++ [' ', '-', '-'])
            = ('-' :: '-' :: (L ++ [' ', '-'])) ++ ['-'] := by simp
        rw [e, List.getLast?_concat] at hd
        rw [← Option.some.inj hd]; decide)
    rw [hform]
    have e : ('-' :: '-' :: (L ++ [' ', '-', '-'])) ++ sepHelp H
        = '-' :: '-' :: (L ++ ' ' :: '-' :: '-' :: sepHelp H) := by simp
    rw [e] at ht htr
    refine parseTag_of_loop (n := 2) ht (by simp) ?_
    have r1 : trimSpace (' ' :: '-' :: '-' :: sepHelp H) = '-' :: '-' :: sepHelp H :=
      trimSpace_rest (a := '-' :: '-' :: L) (by simpa using htr)
    simp [parseLoop, parseStep_long _ _ hL (sep_cons_space _), r1,
      parseStep_dashdash _ _ (sep_sepHelp H), trimSpace_sepHelp hH, hL.1]
  · have hform : "--".toList ++ L ++ " - ".toList ++ H
        = ('-' :: '-' :: (L ++ [' ', '-'])) ++ ' ' :: H := by simp
    obtain ⟨ht, htr⟩ := trimmed_tag (b := '-' :: '-' :: (L ++ [' ', '-']))
      (h := H) (x := '-') rfl (by decide) hH (by
        intro _ d hd
        have e : '-' :: '-' :: (L ++ [' ', '-'])
            = ('-' :: '-' :: (L ++ [' '])) ++ ['-'] := by simp
        rw [e, List.getLast?_concat] at hd
        rw [← Option.some.inj hd]; decide)
    rw [hform]
    have e : ('-' :: '-' :: (L ++ [' ', '-'])) ++ sepHelp H
        = '-' :: '-' :: (L ++ ' ' :: '-' :: sepHelp H) := by simp
    rw [e] at ht htr
    refine parseTag_of_loop (n := 2) ht (by simp) ?_
    have r1 : trimSpace (' ' :: '-' :: sepHelp H) = '-' :: sepHelp H :=
      trimSpace_rest (a := '-' :: '-' :: L) (by simpa using htr)
    simp [parseLoop, parseStep_long _ _ hL (sep_cons_space _), r1,
      parseStep_dash _ _ (sep_sepHelp H), trimSpace_sepHelp hH, hL.1]
  · intro h0 hd
    have hform : "--".toList ++ L ++ " ".toList ++ H = ('-' :: '-' :: L) ++ ' ' :: H := by simp
    obtain ⟨ht, -⟩ := trimmed_tag (b := '-' :: '-' :: L) (h := H) (x := '-') rfl (by decide) hH
      (fun e => absurd e h0)
    rw [hform]
    have e : ('-' :: '-' :: L) ++ sepHelp H = '-' :: '-' :: (L ++ ' ' :: H) := by
      simp [sepHelp, h0]
    rw [e] at ht
    refine parseTag_of_loop (n := 2) ht (by simp) ?_
    have r1 : trimSpace (' ' :: H) = H := by
      rw [trimSpace_cons_space, trimSpace_of_trimmed hH]
    simp [parseLoop, parseStep_long _ _ hL (sep_cons_space _), r1, parseStep_help _ _ hd, hL.1]

theorem parseTag_terminator_witness :
    parseTag "--option -- this is an option".toList
      = some (some { long := "option".toList, help := "this is an option".toList }, none) ∧
    parseTag "--option - this is an option".toList
      = some (some { long := "option".toList, help := "this is an option".toList }, none) ∧
    parseTag "--option this is an option".toList
      = some (some { long := "option".toList, help := "this is an option".toList }, none) :=
  have h := parseTag_terminator "option".toList "this is an option".toList
    (by simp [ValidLong]) (by simp [Trimmed]; decide)
  ⟨h.1, h.2.1, h.2.2 (by simp) (by simp)⟩

/-- C5. For every tag whose first non-white-space characters are three or
more dashes, `parseTag` returns no tag and an error whose message contains
"must not start with ---". -/
theorem parseTag_triple_dash (tag rest : List Char)
    (h : tag.dropWhile isSpace = '-' :: '-' :: '-' :: rest) :
    failsWith (parseTag tag) "must not start with ---".toList := by
  have hd : isSpace '-' = false := by decide
  have ht : trimSpace tag = '-' :: '-' :: '-' :: rest.rdropWhile isSpace := by
    rw [trimSpace, h, rdropWhile_cons_of_neg _ hd, rdropWhile_cons_of_neg _ hd,
      rdropWhile_cons_of_neg _ hd]
  refine ⟨.tripleDash (trimSpace tag), ?_, fun q => contains_tripleDash q _⟩
  refine parseTag_of_loop (n := 1) ht (by simp) ?_
  rw [parseLoop_done 0 (parseStep_triple _ _), ht]

theorem parseTag_triple_dash_witness :
    failsWith (parseTag "  ---option".toList) "must not start with ---".toList :=
  parseTag_triple_dash "  ---option".toList "option".toList (by decide)

/-- C6, the claim as stated fails: the tag `"-  "` is of the form `"- T"` with
`T = " "` non-empty, and `parseTag` returns `(nil, nil)` on it, not an error. -/
theorem parseTag_dash_blank_no_error :
    parseTag ("- ".toList ++ " ".toList) = some (none, none) ∧
    ¬ failsWith (parseTag ("- ".toList ++ " ".toList)) "missing option name".toList := by
  have h : parseTag ("- ".toList ++ " ".toList) = some (none, none) := by decide
  refine ⟨h, ?_⟩
  rintro ⟨e, he, -⟩
  rw [h] at he
  simp at he

/-- C6, amended. `parseTag` returns no tag and an error containing "missing
option name" (i) for every tag whose trimmed form is non-empty and does not
begin with `-`; (ii) for every tag `"- T"` or `"-- T"` where `T` has at least
one character that is not white space; (iii) for every tag whose trimmed form
begins with the token `"-=X"` or `"--=X"`, `X` non-empty. -/
theorem parseTag_missing_option_name (tag T X S : List Char) :
    (trimSpace tag ≠ [] → (trimSpace tag).head? ≠ some '-' →
      failsWith (parseTag tag) "missing option name".toList) ∧
    ((∃ c ∈ T, isSpace c = false) →
      failsWith (parseTag ("- ".toList ++ T)) "missing option name".toList ∧
      failsWith (parseTag ("-- ".toList ++ T)) "missing option name".toList) ∧
    (X ≠ [] → ' ' ∉ X → Sep S →
      (trimSpace tag = "-=".toList ++ X ++ S ∨ trimSpace tag = "--=".toList ++ X ++ S) →
      failsWith (parseTag tag) "missing option name".toList) := by
  refine ⟨?_, ?_, ?_⟩
  · intro h0 hh
    refine ⟨.missingOptionName (trimSpace tag), ?_, fun q => contains_missingOptionName q _⟩
    refine parseTag_first_step rfl h0 ?_
    rw [parseStep_help _ _ hh]
    simp [h0]
  · intro hT
    exact ⟨parseTag_dash_text ['-'] T (Or.inl rfl) hT,
      parseTag_dash_text ['-', '-'] T (Or.inr rfl) hT⟩
  · intro hX0 hX hS htag
    refine ⟨.missingOptionName (trimSpace tag), ?_, fun q => contains_missingOptionName q _⟩
    rcases htag with htag | htag
    · have e : "-=".toList ++ X ++ S = '-' :: '=' :: (X ++ S) := by simp
      rw [e] at htag
      rw [htag]
      exact parseTag_first_step htag (by simp) (parseStep_dash_param _ _ hX0 hX hS)
    · have e : "--=".toList ++ X ++ S = '-' :: '-' :: '=' :: (X ++ S) := by simp
      rw [e] at htag
      rw [htag]
      exact parseTag_first_step htag (by simp) (parseStep_dashdash_param _ _ hX0 hX hS)

theorem parseTag_missing_option_name_witness :
    failsWith (parseTag "no option".toList) "missing option name".toList ∧
    (failsWith (parseTag "- help".toList) "missing option name".toList ∧
      failsWith (parseTag "-- help".toList) "missing option name".toList) ∧
    failsWith (parseTag "-=PARAM".toList) "missing option name".toList ∧
    failsWith (parseTag "--=PARAM".toList) "missing option name".toList :=
  ⟨(parseTag_missing_option_name "no option".toList [] [] []).1 (by decide) (by decide),
   (parseTag_missing_option_name [] "help".toList [] []).2.1 ⟨'h', by simp, by decide⟩,
   (parseTag_missing_option_name "-=PARAM".toList [] "PARAM".toList []).2.2
     (by simp) (by simp) (Or.inl rfl) (Or.inl (by decide)),
   (parseTag_missing_option_name "--=PARAM".toList [] "PARAM".toList []).2.2
     (by simp) (by simp) (Or.inl rfl) (Or.inr (by decide))⟩

/-- C7, the claim as stated fails: `"\t"` is a long name and a character the
claim admits, yet `parseTag("--a --\t")` and `parseTag("-a -\t")` return a tag
and no error. -/
theorem parseTag_second_name_blank :
    (ValidLong "a".toList ∧ ValidLong "\t".toList ∧
      parseTag ("--".toList ++ "a".toList ++ " --".toList ++ "\t".toList)
        = some (some { long := "a".toList }, none)) ∧
    (ValidShort 'a' ∧ ValidShort '\t' ∧
      parseTag ("-".toList ++ ['a'] ++ " -".toList ++ ['\t'])
        = some (some { short := 'a' }, none)) := by
  refine ⟨⟨?_, ?_, by decide⟩, ⟨?_, ?_, by decide⟩⟩ <;> simp [ValidLong, ValidShort]

/-- C7, amended. For all valid long names `L1`, `L2`, `L2` not made only of
white space, `parseTag("--L1 --L2")` fails with "too many long names"; for all
valid characters `a`, `b`, `b` not white space, `parseTag("-a -b")` fails with
"too many short names"; also when `L1 = L2` or `a = b`. -/
theorem parseTag_too_many_names (L1 L2 : List Char) (a b : Char)
    (h1 : ValidLong L1) (h2 : ValidLong L2) (h2s : ∃ c ∈ L2, isSpace c = false)
    (ha : ValidShort a) (hb : ValidShort b) (hbs : isSpace b = false) :
    failsWith (parseTag ("--".toList ++ L1 ++ " --".toList ++ L2))
      "too many long names".toList ∧
    failsWith (parseTag ("-".toList ++ [a] ++ " -".toList ++ [b]))
      "too many short names".toList := by
  have hdash : isSpace '-' = false := by decide
  constructor
  · obtain ⟨m, w, e, hm0, hw, hlast, hsub, hhead⟩ := rtrim_decomp h2s
    have hm : ValidLong m :=
      ⟨hm0, fun h => h2.2.1 (hsub _ h), fun h => h2.2.2.1 (hsub _ h), by rw [hhead]; exact h2.2.2.2⟩
    have htr : Trimmed ('-' :: (('-' :: (L1 ++ [' ', '-', '-'])) ++ m)) :=
      trimmed_cons_append hdash hlast hm0
    have hform : "--".toList ++ L1 ++ " --".toList ++ L2
        = ('-' :: (('-' :: (L1 ++ [' ', '-', '-'])) ++ m)) ++ w := by
      rw [e]; simp
    have htag : trimSpace ("--".toList ++ L1 ++ " --".toList ++ L2)
        = '-' :: '-' :: (L1 ++ ' ' :: '-' :: '-' :: m) := by
      rw [hform, trimSpace_append_space hw, trimSpace_of_trimmed htr]
      simp
    have htr2 : Trimmed ('-' :: '-' :: (L1 ++ ' ' :: '-' :: '-' :: m)) := by
      simpa using htr
    have r1 : trimSpace (' ' :: '-' :: '-' :: m) = '-' :: '-' :: m :=
      trimSpace_rest (a := '-' :: '-' :: L1) (by simpa using htr2)
    have s2 := parseStep_long ('-' :: '-' :: (L1 ++ ' ' :: '-' :: '-' :: m))
      { long := L1 } hm (Or.inl rfl : Sep [])
    simp only [List.append_nil] at s2
    refine ⟨.tooManyLong ('-' :: '-' :: (L1 ++ ' ' :: '-' :: '-' :: m)), ?_,
      fun q => contains_tooManyLong q _⟩
    refine parseTag_of_loop (n := 2) htag (by simp) ?_
    simp [parseLoop, parseStep_long _ _ h1 (sep_cons_space _), r1, s2, h1.1]
  · have htr : Trimmed ('-' :: ([a, ' ', '-'] ++ [b])) :=
      trimmed_cons_append hdash (by intro c hc; simp at hc; rw [← hc]; exact hbs) (by simp)
    have hform : "-".toList ++ [a] ++ " -".toList ++ [b] = ['-', a, ' ', '-', b] := by simp
    have htag : trimSpace ("-".toList ++ [a] ++ " -".toList ++ [b]) = ['-', a, ' ', '-', b] := by
      rw [hform]
      exact trimSpace_of_trimmed (by simpa using htr)
    have r1 : trimSpace [' ', '-', b] = ['-', b] :=
      trimSpace_rest (a := ['-', a]) (by simpa using htr)
    have s2 := parseStep_short ['-', a, ' ', '-', b] { short := a } hb (Or.inl rfl : Sep [])
    refine ⟨.tooManyShort ['-', a, ' ', '-', b], ?_, fun q => contains_tooManyShort q _⟩
    refine parseTag_of_loop (n := 2) htag (by simp) ?_
    simp [parseLoop, parseStep_short _ _ ha (sep_cons_space _), r1, s2, ha.2.2.2]

theorem parseTag_too_many_names_witness :
    failsWith (parseTag "--option --option".toList) "too many long names".toList ∧
    failsWith (parseTag "-a -a".toList) "too many short names".toList :=
  parseTag_too_many_names "option".toList "option".toList 'a' 'a'
    (by simp [ValidLong]) (by simp [ValidLong]) ⟨'o', by simp, by decide⟩
    (by simp [ValidShort]) (by simp [ValidShort]) (by decide)

/-- C8, the claim as stated fails: in `"--x=A -y=\t"` both tokens carry a
non-empty space-free parameter name and `parseTag` returns a tag and no
error; in `"-a -b=X -c=Y"` two tokens carry one and the error is "too many
short names". -/
theorem parseTag_two_params_other_result :
    (ValidLong "x".toList ∧ ValidShort 'y' ∧ "\t".toList ≠ [] ∧ ' ' ∉ "\t".toList ∧
      parseTag ("--".toList ++ "x".toList ++ "=".toList ++ "A".toList ++ " -".toList ++ ['y']
          ++ "=".toList ++ "\t".toList)
        = some (some { long := "x".toList, short := 'y', param := "A".toList }, none)) ∧
    parseTag "-a -b=X -c=Y".toList
      = some (none, some (.tooManyShort "-a -b=X -c=Y".toList)) := by
  refine ⟨⟨?_, ?_, ?_, ?_, by decide⟩, by decide⟩ <;> simp [ValidLong, ValidShort]

/-- C8, amended. For every tag `"T1=P1 T2=P2"` made of two option tokens
(`--L` or `-c`, `L` and `c` valid), `P1` non-empty and space-free, `P2`
space-free and not made only of white space, `parseTag` returns no tag and an
error containing "multiple parameter names"; and `parseTag("--L=P -c -- H")`
and `parseTag("--L -c=P -- H")` both return `{long: L, short: c, param: P,
help: H}`: the parameter name is recorded whether it is attached to the long
or to the short token. -/
theorem parseTag_param_names (T1 T2 P1 P2 L P H : List Char) (c : Char)
    (hT1 : IsOptionToken T1) (hT2 : IsOptionToken T2) (hP1 : P1 ≠ []) (h1 : ' ' ∉ P1)
    (h2 : ' ' ∉ P2) (h2s : ∃ x ∈ P2, isSpace x = false)
    (hL : ValidLong L) (hc : ValidShort c) (hP0 : P ≠ []) (hP : ' ' ∉ P) (hH : Trimmed H) :
    failsWith (parseTag (T1 ++ "=".toList ++ P1 ++ " ".toList ++ T2 ++ "=".toList ++ P2))
      "multiple parameter names".toList ∧
    parseTag ("--".toList ++ L ++ "=".toList ++ P ++ " -".toList ++ [c] ++ " -- ".toList ++ H)
      = some (some { long := L, short := c, param := P, help := H }, none) ∧
    parseTag ("--".toList ++ L ++ " -".toList ++ [c] ++ "=".toList ++ P ++ " -- ".toList ++ H)
      = some (some { long := L, short := c, param := P, help := H }, none) := by
  have hdash : isSpace '-' = false := by decide
  refine ⟨?_, ?_, ?_⟩
  · obtain ⟨m, w, e, hm0, hw, hlast, hsub, -⟩ := rtrim_decomp h2s
    obtain ⟨t1, e1⟩ := isOptionToken_cons hT1
    obtain ⟨t2, e2⟩ := isOptionToken_cons hT2
    have hm : ' ' ∉ m := fun h => h2 (hsub _ h)
    have htr : Trimmed ('-' :: ((t1 ++ '=' :: (P1 ++ ' ' :: '-' :: (t2 ++ ['=']))) ++ m)) :=
      trimmed_cons_append hdash hlast hm0
    have htr2 : Trimmed ('-' :: (t1 ++ '=' :: (P1 ++ ' ' :: '-' :: (t2 ++ '=' :: m)))) := by
      simpa using htr
    have hform : T1 ++ "=".toList ++ P1 ++ " ".toList ++ T2 ++ "=".toList ++ P2
        = ('-' :: (t1 ++ '=' :: (P1 ++ ' ' :: '-' :: (t2 ++ '=' :: m)))) ++ w := by
      rw [e, e1, e2]; simp
    have htag : trimSpace (T1 ++ "=".toList ++ P1 ++ " ".toList ++ T2 ++ "=".toList ++ P2)
        = '-' :: (t1 ++ '=' :: (P1 ++ ' ' :: '-' :: (t2 ++ '=' :: m))) := by
      rw [hform, trimSpace_append_space hw, trimSpace_of_trimmed htr2]
    have r1 : trimSpace (' ' :: '-' :: (t2 ++ '=' :: m)) = '-' :: (t2 ++ '=' :: m) :=
      trimSpace_rest (a := '-' :: (t1 ++ '=' :: P1)) (by simpa using htr2)
    obtain ⟨o1, ho1, s1⟩ := parseStep_token_param_first
      ('-' :: (t1 ++ '=' :: (P1 ++ ' ' :: '-' :: (t2 ++ '=' :: m)))) hT1 hP1 h1
      (sep_cons_space ('-' :: (t2 ++ '=' :: m)))
    have s2 := parseStep_token_param_second
      ('-' :: (t1 ++ '=' :: (P1 ++ ' ' :: '-' :: (t2 ++ '=' :: m)))) o1 hT2 hm0 hm
      (Or.inl rfl : Sep []) (by rw [ho1]; exact hP1)
    rw [e1] at s1
    rw [e2] at s2
    simp only [List.cons_append, List.append_nil] at s1 s2
    refine ⟨.multipleParams ('-' :: (t1 ++ '=' :: (P1 ++ ' ' :: '-' :: (t2 ++ '=' :: m)))), ?_,
      fun q => contains_multipleParams q _⟩
    refine parseTag_of_loop (n := 2) htag (by simp) ?_
    rw [parseLoop_again 1 s1, r1, parseLoop_done 0 s2]
  · have hform : "--".toList ++ L ++ "=".toList ++ P ++ " -".toList ++ [c] ++ " -- ".toList ++ H
        = ('-' :: '-' :: (L ++ '=' :: (P ++ [' ', '-', c, ' ', '-'] ++ ['-']))) ++ ' ' :: H := by
      simp
    obtain ⟨ht, htr⟩ := trimmed_tag
      (b := '-' :: '-' :: (L ++ '=' :: (P ++ [' ', '-', c, ' ', '-'] ++ ['-'])))
      (h := H) (x := '-') rfl hdash hH (by
        intro _ d hd
        have e : '-' :: '-' :: (L ++ '=' :: (P ++ [' ', '-', c, ' ', '-'] ++ ['-']))
            = ('-' :: '-' :: (L ++ '=' :: (P ++ [' ', '-', c, ' ', '-']))) ++ ['-'] := by simp
        rw [e] at hd
        exact last_dash d hd)
    rw [hform]
    have e : ('-' :: '-' :: (L ++ '=' :: (P ++ [' ', '-', c, ' ', '-'] ++ ['-']))) ++ sepHelp H
        = '-' :: '-' :: (L ++ '=' :: (P ++ ' ' :: '-' :: c :: ' ' :: '-' :: '-' :: sepHelp H)) := by
      simp
    rw [e] at ht htr
    exact parseTag_of_loop ht (by simp) (parseLoop_long_param_short L P H c hL hc hP0 hP hH htr)
  · have hform : "--".toList ++ L ++ " -".toList ++ [c] ++ "=".toList ++ P ++ " -- ".toList ++ H
        = ('-' :: '-' :: (L ++ ' ' :: '-' :: c :: '=' :: (P ++ [' ', '-'] ++ ['-']))) ++ ' ' :: H := by
      simp
    obtain ⟨ht, htr⟩ := trimmed_tag
      (b := '-' :: '-' :: (L ++ ' ' :: '-' :: c :: '=' :: (P ++ [' ', '-'] ++ ['-'])))
      (h := H) (x := '-') rfl hdash hH (by
        intro _ d hd
        have e : '-' :: '-' :: (L ++ ' ' :: '-' :: c :: '=' :: (P ++ [' ', '-'] ++ ['-']))
            = ('-' :: '-' :: (L ++ ' ' :: '-' :: c :: '=' :: (P ++ [' ', '-']))) ++ ['-'] := by
          simp
        rw [e] at hd
        exact last_dash d hd)
    rw [hform]
    have e : ('-' :: '-' :: (L ++ ' ' :: '-' :: c :: '=' :: (P ++ [' ', '-'] ++ ['-']))) ++ sepHelp H
        = '-' :: '-' :: (L ++ ' ' :: '-' :: c :: '=' :: (P ++ ' ' :: '-' :: '-' :: sepHelp H)) := by
      simp
    rw [e] at ht htr
    exact parseTag_of_loop ht (by simp) (parseLoop_long_short_param L P H c hL hc hP0 hP hH htr)

theorem parseTag_param_names_witness :
    failsWith (parseTag "--option=PARAM1 -o=PARAM2".toList) "multiple parameter names".toList ∧
    parseTag "--count=COUNT -c -- number of widgets".toList
      = some (some ⟨"count".toList, 'c', "COUNT".toList, "number of widgets".toList⟩, none) ∧
    parseTag "--count -c=COUNT -- number of widgets".toList
      = some (some ⟨"count".toList, 'c', "COUNT".toList, "number of widgets".toList⟩, none) :=
  have h := parseTag_param_names "--option".toList "-o".toList "PARAM1".toList "PARAM2".toList
    "count".toList "COUNT".toList "number of widgets".toList 'c'
    (Or.inl ⟨"option".toList, by simp [ValidLong], rfl⟩)
    (Or.inr ⟨'o', by simp [ValidShort], rfl⟩) (by simp) (by simp) (by simp)
    ⟨'P', by simp, by decide⟩ (by simp [ValidLong]) (by simp [ValidShort]) (by simp) (by simp)
    (by simp [Trimmed]; decide)
  ⟨h.1, h.2.1, h.2.2⟩

/-- C9. `parseTag` returns `(nil, nil)` for every tag that is empty or consists
only of white space, and for every tag whose trimmed form is exactly `-` or
`--`. -/
theorem parseTag_nil_nil (tag : List Char) :
    ((∀ c ∈ tag, isSpace c = true) → parseTag tag = some (none, none)) ∧
    ((trimSpace tag = "-".toList ∨ trimSpace tag = "--".toList) →
      parseTag tag = some (none, none)) := by
  constructor
  · intro h
    simp [parseTag, trimSpace_eq_nil_iff.mpr h]
  · intro h
    have hnil : Sep [] := Or.inl rfl
    rcases h with h | h
    · refine parseTag_first_step h (by simp) ?_
      show parseStep _ _ ('-' :: []) = _
      rw [parseStep_dash _ _ hnil]
      simp [trimSpace_nil]
    · refine parseTag_first_step h (by simp) ?_
      show parseStep _ _ ('-' :: '-' :: []) = _
      rw [parseStep_dashdash _ _ hnil]
      simp [trimSpace_nil]

theorem parseTag_nil_nil_witness :
    parseTag " \t\n".toList = some (none, none) ∧
    parseTag " -- ".toList = some (none, none) :=
  ⟨(parseTag_nil_nil " \t\n".toList).1 (by decide),
   (parseTag_nil_nil " -- ".toList).2 (Or.inr (by decide))⟩

/-- C10, the claim as stated fails with an empty help text: `parseTag("--x -\t ")`
has no short name, the tab being trimmed away, and `parseTag("-c --x\t ")` has
the long name `x`, not `"x\t"`. -/
theorem parseTag_order_trailing_blank :
    (ValidLong "x".toList ∧ ValidShort '\t' ∧
      parseTag ("--".toList ++ "x".toList ++ " -".toList ++ ['\t'] ++ " ".toList ++ [])
        = some (some { long := "x".toList }, none)) ∧
    (ValidLong "x\t".toList ∧ ValidShort 'c' ∧
      parseTag ("-".toList ++ ['c'] ++ " --".toList ++ "x\t".toList ++ " ".toList ++ [])
        = some (some { long := "x".toList, short := 'c' }, none)) := by
  refine ⟨⟨?_, ?_, by decide⟩, ⟨?_, ?_, by decide⟩⟩ <;> simp [ValidLong, ValidShort]

/-- C10, amended. For every valid long name `L`, valid character `c` and help
text `H` (no leading or trailing white space, not beginning with `-`, possibly
empty), provided that when `H` is empty `c` is not white space and `L` does not
end in white space, `parseTag("--L -c H")` and `parseTag("-c --L H")` return
the same tag `{long: L, short: c, help: H}`. -/
theorem parseTag_order_irrelevant (L H : List Char) (c : Char) (hL : ValidLong L)
    (hc : ValidShort c) (hH : Trimmed H) (hd : H.head? ≠ some '-')
    (hend : H = [] → isSpace c = false ∧ ∀ y, L.getLast? = some y → isSpace y = false) :
    parseTag ("--".toList ++ L ++ " -".toList ++ [c] ++ " ".toList ++ H)
      = some (some { long := L, short := c, help := H }, none) ∧
    parseTag ("-".toList ++ [c] ++ " --".toList ++ L ++ " ".toList ++ H)
      = some (some { long := L, short := c, help := H }, none) := by
  have hdash : isSpace '-' = false := by decide
  constructor
  · have hform : "--".toList ++ L ++ " -".toList ++ [c] ++ " ".toList ++ H
        = ('-' :: '-' :: (L ++ [' ', '-'] ++ [c])) ++ ' ' :: H := by simp
    obtain ⟨ht, htr⟩ := trimmed_tag (b := '-' :: '-' :: (L ++ [' ', '-'] ++ [c]))
      (h := H) (x := '-') rfl hdash hH (by
        intro h0 d hd
        have e : '-' :: '-' :: (L ++ [' ', '-'] ++ [c])
            = ('-' :: '-' :: (L ++ [' ', '-'])) ++ [c] := by simp
        rw [e, List.getLast?_concat] at hd
        rw [← Option.some.inj hd]
        exact (hend h0).1)
    rw [hform]
    have e : ('-' :: '-' :: (L ++ [' ', '-'] ++ [c])) ++ sepHelp H
        = '-' :: '-' :: (L ++ ' ' :: '-' :: c :: sepHelp H) := by simp
    rw [e] at ht htr
    refine parseTag_of_loop (n := 3) ht (by simp) ?_
    have r1 : trimSpace (' ' :: '-' :: c :: sepHelp H) = '-' :: c :: sepHelp H :=
      trimSpace_rest (a := '-' :: '-' :: L) (by simpa using htr)
    simp [parseLoop, parseStep_long _ _ hL (sep_cons_space _), r1,
      parseStep_short _ _ hc (sep_sepHelp H), trimSpace_sepHelp hH, parseStep_help _ _ hd, hL.1]
  · have hform : "-".toList ++ [c] ++ " --".toList ++ L ++ " ".toList ++ H
        = ('-' :: ([c, ' ', '-', '-'] ++ L)) ++ ' ' :: H := by simp
    obtain ⟨ht, htr⟩ := trimmed_tag (b := '-' :: ([c, ' ', '-', '-'] ++ L))
      (h := H) (x := '-') rfl hdash hH (by
        intro h0 d hd
        have e : '-' :: ([c, ' ', '-', '-'] ++ L) = ['-', c, ' ', '-', '-'] ++ L := by simp
        rw [e, List.getLast?_append_of_ne_nil _ hL.1] at hd
        exact (hend h0).2 d hd)
    rw [hform]
    have e : ('-' :: ([c, ' ', '-', '-'] ++ L)) ++ sepHelp H
        = '-' :: c :: ' ' :: '-' :: '-' :: (L ++ sepHelp H) := by simp
    rw [e] at ht htr
    refine parseTag_of_loop (n := 3) ht (by simp) ?_
    have r1 : trimSpace (' ' :: '-' :: '-' :: (L ++ sepHelp H)) = '-' :: '-' :: (L ++ sepHelp H) :=
      trimSpace_rest (a := ['-', c]) (by simpa using htr)
    simp [parseLoop, parseStep_short _ _ hc (sep_cons_space _), r1,
      parseStep_long _ _ hL (sep_sepHelp H), trimSpace_sepHelp hH, parseStep_help _ _ hd, hL.1]

theorem parseTag_order_irrelevant_witness :
    parseTag "--option -o ".toList
      = some (some { long := "option".toList, short := 'o' }, none) ∧
    parseTag "-o --option ".toList
      = some (some { long := "option".toList, short := 'o' }, none) :=
  parseTag_order_irrelevant "option".toList [] 'o' (by simp [ValidLong]) (by simp [ValidShort])
    (by simp [Trimmed]) (by simp) (fun _ => ⟨by decide, by simp; decide⟩)

/-! ## `register` on a field without a tag -/

theorem parseTag_empty : parseTag [] = some (none, none) := by
  decide

/-- The loop of `register` over `pre ++ rest` when the part over `pre` runs
through. -/
theorem registerFields_append {α σ : Type} (toLower : List Char → List Char)
    (flagLong : σ → FlagLongCall α → Option σ) (rest : List (Field α)) :
    ∀ (pre : List (Field α)) (set set1 : σ),
      registerFields toLower flagLong pre set = .returned none set1 →
      registerFields toLower flagLong (pre ++ rest) set
        = registerFields toLower flagLong rest set1 := by
  intro pre
  induction pre with
  | nil =>
    intro set set1 h
    simp only [registerFields, Outcome.returned.injEq, true_and] at h
    rw [List.nil_append, h]
  | cons f fs ih =>
    intro set set1 h
    simp only [List.cons_append, registerFields] at h ⊢
    by_cases hs : f.tag = ['-'] ∨ f.canSet = false
    · rw [if_pos hs] at h ⊢
      exact ih _ _ h
    · rw [if_neg hs] at h ⊢
      cases hp : parseTag f.tag with
      | none => simp only [hp] at h; cases h
      | some r =>
        obtain ⟨o, e⟩ := r
        cases e with
        | some err => simp only [hp] at h; cases h
        | none =>
          simp only [hp] at h ⊢
          cases ho : (match o with
              | some o => some o
              | none => autoTag (toLower f.name)) with
          | none => simp only [ho] at h; cases h
          | some o2 =>
            simp only [ho] at h ⊢
            split at h
            · cases h
            · exact ih _ _ h

/-- The pass of `register` over an exported field with an empty tag. -/
theorem registerFields_untagged {α σ : Type} (toLower : List Char → List Char)
    (flagLong : σ → FlagLongCall α → Option σ) (field : Field α) (rest : List (Field α))
    (set : σ) (hexp : field.canSet = true) (htag : field.tag = []) :
    registerFields toLower flagLong (field :: rest) set =
      match autoTag (toLower field.name) with
      | none => .nilDeref
      | some o =>
        match flagLong set ⟨field.value, o.long, o.short,
            if o.param = [] then [if o.help = [] then "unspecified".toList else o.help]
            else [if o.help = [] then "unspecified".toList else o.help, o.param]⟩ with
        | none => .flagLongFailed
        | some set2 => registerFields toLower flagLong rest set2 := by
  simp only [registerFields, htag, hexp, parseTag_empty]
  cases autoTag (toLower field.name) with
  | none => simp
  | some o =>
    by_cases hh : o.help = [] <;> by_cases hp : o.param = [] <;> simp [hh, hp]

/-- The pass of `register` over an exported field whose tag parses to `o`. -/
theorem registerFields_tagged {α σ : Type} (toLower : List Char → List Char)
    (flagLong : σ → FlagLongCall α → Option σ) (field : Field α) (rest : List (Field α))
    (set : σ) (o : optTag) (hexp : field.canSet = true) (hdash : field.tag ≠ ['-'])
    (htag : parseTag field.tag = some (some o, none)) :
    registerFields toLower flagLong (field :: rest) set =
      match flagLong set ⟨field.value, o.long, o.short,
          if o.param = [] then [if o.help = [] then "unspecified".toList else o.help]
          else [if o.help = [] then "unspecified".toList else o.help, o.param]⟩ with
      | none => .flagLongFailed
      | some set2 => registerFields toLower flagLong rest set2 := by
  simp only [registerFields, htag, hexp, hdash]
  by_cases hh : o.help = [] <;> by_cases hp : o.param = [] <;> simp [hh, hp]

/-- The tag `-c H`: a short name and a help text. -/
theorem parseTag_short_help (c : Char) (H : List Char) (hc : ValidShort c) (hH : Trimmed H)
    (h0 : H ≠ []) (hd : H.head? ≠ some '-') :
    parseTag ('-' :: c :: ' ' :: H) = some (some { short := c, help := H }, none) := by
  obtain ⟨ht, -⟩ := trimmed_tag (b := ['-', c]) (h := H) (x := '-') rfl (by decide) hH
    (fun e => absurd e h0)
  have e : ['-', c] ++ sepHelp H = '-' :: c :: ' ' :: H := by simp [sepHelp, h0]
  rw [e] at ht
  have e2 : ['-', c] ++ ' ' :: H = '-' :: c :: ' ' :: H := by simp
  rw [e2] at ht
  refine parseTag_of_loop (n := 2) ht (by simp) ?_
  have r1 : trimSpace (' ' :: H) = H := by
    rw [trimSpace_cons_space, trimSpace_of_trimmed hH]
  simp [parseLoop, parseStep_short _ _ hc (sep_cons_space _), r1, parseStep_help _ _ hd, hc.2.2.2]

/-- The tag `--L H`: a long name and a help text. -/
theorem parseTag_long_help (L H : List Char) (hL : ValidLong L) (hH : Trimmed H)
    (h0 : H ≠ []) (hd : H.head? ≠ some '-') :
    parseTag ('-' :: '-' :: (L ++ ' ' :: H)) = some (some { long := L, help := H }, none) := by
  obtain ⟨ht, -⟩ := trimmed_tag (b := '-' :: '-' :: L) (h := H) (x := '-') rfl (by decide) hH
    (fun e => absurd e h0)
  have e : ('-' :: '-' :: L) ++ sepHelp H = '-' :: '-' :: (L ++ ' ' :: H) := by
    simp [sepHelp, h0]
  rw [e] at ht
  have e2 : ('-' :: '-' :: L) ++ ' ' :: H = '-' :: '-' :: (L ++ ' ' :: H) := by simp
  rw [e2] at ht
  refine parseTag_of_loop (n := 2) ht (by simp) ?_
  have r1 : trimSpace (' ' :: H) = H := by
    rw [trimSpace_cons_space, trimSpace_of_trimmed hH]
  simp [parseLoop, parseStep_long _ _ hL (sep_cons_space _), r1, parseStep_help _ _ hd, hL.1]

theorem trimmed_unspecified : Trimmed "unspecified".toList := by
  constructor <;> intro c hc <;> simp at hc <;> rw [← hc] <;> decide

/-! ## The loop of `Lookup` -/

theorem lookupFields_skip {α : Type} (toLower : List Char → List Char) (f : Field α)
    (fs : List (Field α)) (q : List Char) (h : Skipped f) :
    lookupFields toLower (f :: fs) q = lookupFields toLower fs q := by
  unfold Skipped at h
  simp only [lookupFields, if_pos h]

theorem lookupFields_declared {α : Type} (toLower : List Char → List Char) (f : Field α)
    (fs : List (Field α)) (q : List Char) (o : optTag) (h : ¬ Skipped f)
    (hd : declared toLower f = some o) :
    lookupFields toLower (f :: fs) q =
      if q = o.long ∨ q = [o.short] then .returned (some f.value)
      else lookupFields toLower fs q := by
  unfold Skipped at h
  simp only [lookupFields, if_neg h]
  unfold declared at hd
  cases hp : parseTag f.tag with
  | none => simp [hp] at hd
  | some r =>
    obtain ⟨t, e⟩ := r
    cases e with
    | some err => simp [hp] at hd
    | none =>
      cases t with
      | some o2 =>
        simp only [hp, Option.some.injEq] at hd
        simp only [hd]
      | none =>
        simp only [hp] at hd
        simp only [hd]

/-- The loop finds nothing when no field it considers has the long name `q`
or a short name whose string is `q`, an absent name counting as `""` and as
the NUL character. -/
theorem lookupFields_not_found {α : Type} (toLower : List Char → List Char) (q : List Char) :
    ∀ fields : List (Field α),
      (∀ f ∈ fields, Skipped f ∨ ∃ o, declared toLower f = some o ∧ q ≠ o.long ∧ q ≠ [o.short]) →
      lookupFields toLower fields q = .returned none := by
  intro fields
  induction fields with
  | nil => intro _; rfl
  | cons f fs ih =>
    intro h
    have ih2 := ih (fun g hg => h g (List.mem_cons_of_mem _ hg))
    rcases h f (List.mem_cons_self _ _) with hs | ⟨o, hd, h1, h2⟩
    · rw [lookupFields_skip _ _ _ _ hs, ih2]
    · by_cases hs : Skipped f
      · rw [lookupFields_skip _ _ _ _ hs, ih2]
      · rw [lookupFields_declared _ _ _ _ o hs hd, if_neg (by simp [h1, h2]), ih2]

/-- The loop returns the first field that has the long name `q` or a short name
whose string is `q`. -/
theorem lookupFields_found {α : Type} (toLower : List Char → List Char) (q : List Char)
    (f : Field α) (post : List (Field α)) (o : optTag) (hs : ¬ Skipped f)
    (hd : declared toLower f = some o) (hq : q = o.long ∨ q = [o.short]) :
    ∀ pre : List (Field α),
      (∀ g ∈ pre, Skipped g ∨ ∃ o, declared toLower g = some o ∧ q ≠ o.long ∧ q ≠ [o.short]) →
      lookupFields toLower (pre ++ f :: post) q = .returned (some f.value) := by
  intro pre
  induction pre with
  | nil =>
    intro _
    rw [List.nil_append, lookupFields_declared _ _ _ _ o hs hd, if_pos hq]
  | cons g gs ih =>
    intro h
    have ih2 := ih (fun x hx => h x (List.mem_cons_of_mem _ hx))
    rw [List.cons_append]
    rcases h g (List.mem_cons_self _ _) with hg | ⟨o2, hd2, h1, h2⟩
    · rw [lookupFields_skip _ _ _ _ hg, ih2]
    · by_cases hg : Skipped g
      · rw [lookupFields_skip _ _ _ _ hg, ih2]
      · rw [lookupFields_declared _ _ _ _ o2 hg hd2, if_neg (by simp [h1, h2]), ih2]

/-- A field that does not declare the name `q`, `q` being neither empty nor the
NUL character, holds neither `q` as long name nor as short name. -/
theorem not_declares_ne {α : Type} {toLower : List Char → List Char} {g : Field α}
    {q : List Char} {o : optTag} (hd : declared toLower g = some o)
    (hn : ¬ Declares toLower g q) (h0 : q ≠ []) (h1 : q ≠ [Char.ofNat 0]) :
    q ≠ o.long ∧ q ≠ [o.short] := by
  constructor
  · intro e
    exact hn ⟨o, hd, Or.inl ⟨by rw [← e]; exact h0, e.symm⟩⟩
  · intro e
    refine hn ⟨o, hd, Or.inr ⟨?_, e.symm⟩⟩
    intro hz
    rw [hz] at e
    exact h1 e

/-- `Lookup` returns nil for a name that is neither empty nor the NUL character
and that no considered field declares. -/
theorem Lookup_not_declared {α : Type} (toLower : List Char → List Char)
    (fields : List (Field α)) (q : List Char) (h0 : q ≠ []) (h1 : q ≠ [Char.ofNat 0])
    (h : ∀ f ∈ fields, Skipped f ∨
      ((∃ o, declared toLower f = some o) ∧ ¬ Declares toLower f q)) :
    Lookup toLower (.ptrToStruct fields) q = .returned none := by
  apply lookupFields_not_found
  intro f hf
  rcases h f hf with hs | ⟨⟨o, hd⟩, hn⟩
  · exact Or.inl hs
  · exact Or.inr ⟨o, hd, not_declares_ne hd hn h0 h1⟩

/-- `Lookup` by the long or the short name of a field returns the field, when
no earlier field declares the name and the name is not the NUL character. -/
theorem Lookup_declared {α : Type} (toLower : List Char → List Char)
    (pre post : List (Field α)) (f : Field α) (o : optTag) (q : List Char)
    (hs : ¬ Skipped f) (hd : declared toLower f = some o)
    (hq : (o.long ≠ [] ∧ q = o.long) ∨ (o.short ≠ Char.ofNat 0 ∧ q = [o.short]))
    (h1 : q ≠ [Char.ofNat 0])
    (h : ∀ g ∈ pre, Skipped g ∨
      ((∃ o, declared toLower g = some o) ∧ ¬ Declares toLower g q)) :
    Lookup toLower (.ptrToStruct (pre ++ f :: post)) q = .returned (some f.value) := by
  have h0 : q ≠ [] := by
    rcases hq with ⟨hl, e⟩ | ⟨_, e⟩
    · rw [e]; exact hl
    · rw [e]; simp
  have hq2 : q = o.long ∨ q = [o.short] := by
    rcases hq with ⟨_, e⟩ | ⟨_, e⟩
    · exact Or.inl e
    · exact Or.inr e
  apply lookupFields_found toLower q f post o hs hd hq2
  intro g hg
  rcases h g hg with hs | ⟨⟨o2, hd2⟩, hn⟩
  · exact Or.inl hs
  · exact Or.inr ⟨o2, hd2, not_declares_ne hd2 hn h0 h1⟩

/-! ## The loop of `Dup` -/

/-- The function `parseTag` returns on every tag. -/
theorem parseTag_returns (tag : List Char) : ∃ r, parseTag tag = some r := by
  unfold parseTag
  by_cases h : trimSpace tag = []
  · exact ⟨(none, none), by simp [h]⟩
  · obtain ⟨r, hr⟩ := parseLoop_returns (trimSpace tag) ((trimSpace tag).length + 1) {}
      (trimSpace tag) (by omega)
    exact ⟨r, by simp [h, hr]⟩

theorem dupFields_skip {α : Type} (zero : Field α → α) (f : Field α) (fs newi : List (Field α))
    (h : Skipped f) :
    dupFields zero (f :: fs) newi = dupFields zero fs (newi ++ [{ f with value := zero f }]) := by
  unfold Skipped at h
  simp only [dupFields, if_pos h]

theorem dupFields_valid {α : Type} (zero : Field α → α) (f : Field α) (fs newi : List (Field α))
    (o : Option optTag) (h : ¬ Skipped f) (hp : parseTag f.tag = some (o, none)) :
    dupFields zero (f :: fs) newi = dupFields zero fs (newi ++ [f]) := by
  unfold Skipped at h
  simp only [dupFields, if_neg h, hp]

theorem dupFields_rejected {α : Type} (zero : Field α → α) (f : Field α) (fs newi : List (Field α))
    (o : Option optTag) (e : TagError) (h : ¬ Skipped f) (hp : parseTag f.tag = some (o, some e)) :
    dupFields zero (f :: fs) newi = .panicked e := by
  unfold Skipped at h
  simp only [dupFields, if_neg h, hp]

/-- The loop of `Dup` when every field it considers has a valid tag. -/
theorem dupFields_all_valid {α : Type} (zero : Field α → α) :
    ∀ fields newi : List (Field α),
      (∀ f ∈ fields, ¬ Skipped f → ∃ o, parseTag f.tag = some (o, none)) →
      dupFields zero fields newi = .returned (newi ++ fields.map fun f =>
        if f.tag = ['-'] ∨ f.canSet = false then { f with value := zero f } else f) := by
  intro fields
  induction fields with
  | nil => intro newi _; simp [dupFields]
  | cons f fs ih =>
    intro newi h
    have ih2 := fun n => ih n (fun g hg => h g (List.mem_cons_of_mem _ hg))
    by_cases hs : Skipped f
    · rw [dupFields_skip _ _ _ _ hs, ih2]
      unfold Skipped at hs
      simp [hs]
    · obtain ⟨o, hp⟩ := h f (List.mem_cons_self _ _) hs
      rw [dupFields_valid _ _ _ _ o hs hp, ih2]
      unfold Skipped at hs
      simp [hs]

/-- The loop of `Dup` when some field it considers has a rejected tag: it
panics with the error of such a field, the first one. -/
theorem dupFields_some_rejected {α : Type} (zero : Field α → α) :
    ∀ fields newi : List (Field α),
      (∃ f ∈ fields, ¬ Skipped f ∧ ∃ o e, parseTag f.tag = some (o, some e)) →
      ∃ f ∈ fields, ¬ Skipped f ∧ ∃ o e, parseTag f.tag = some (o, some e) ∧
        dupFields zero fields newi = .panicked e := by
  intro fields
  induction fields with
  | nil => intro newi h; obtain ⟨f, hf, _⟩ := h; simp at hf
  | cons g gs ih =>
    intro newi h
    by_cases hs : Skipped g
    · have hin : ∃ f ∈ gs, ¬ Skipped f ∧ ∃ o e, parseTag f.tag = some (o, some e) := by
        obtain ⟨f, hf, hfs, hrej⟩ := h
        rcases List.mem_cons.mp hf with rfl | hf
        · exact absurd hs hfs
        · exact ⟨f, hf, hfs, hrej⟩
      obtain ⟨f, hf, hfs, o, e, hp, hd⟩ := ih (newi ++ [{ g with value := zero g }]) hin
      exact ⟨f, List.mem_cons_of_mem _ hf, hfs, o, e, hp, by rw [dupFields_skip _ _ _ _ hs, hd]⟩
    · obtain ⟨r, hr⟩ := parseTag_returns g.tag
      obtain ⟨o, e⟩ := r
      cases e with
      | some err =>
        exact ⟨g, List.mem_cons_self _ _, hs, o, err, hr, dupFields_rejected _ _ _ _ o err hs hr⟩
      | none =>
        have hin : ∃ f ∈ gs, ¬ Skipped f ∧ ∃ o e, parseTag f.tag = some (o, some e) := by
          obtain ⟨f, hf, hfs, o2, e2, hrej⟩ := h
          rcases List.mem_cons.mp hf with rfl | hf
          · rw [hr] at hrej; simp at hrej
          · exact ⟨f, hf, hfs, o2, e2, hrej⟩
        obtain ⟨f, hf, hfs, o2, e2, hp, hd⟩ := ih (newi ++ [g]) hin
        exact ⟨f, List.mem_cons_of_mem _ hf, hfs, o2, e2, hp,
          by rw [dupFields_valid _ _ _ _ o hs hr, hd]⟩

/-! ## The two parts of `VarLong` -/

theorem newOption_names {ν : Type} {render : ν → List Char} {caller : Option (List Char × Nat)}
    {p : ν} {name : List Char} {short : Char} {helpvalue : List (List Char)} {opt : option ν}
    (h : VarLong.newOption render caller p name short helpvalue = some opt) :
    opt.short = short ∧ opt.long = name := by
  unfold VarLong.newOption at h
  match helpvalue, caller with
  | [], none => simp at h; rw [← h]; exact ⟨rfl, rfl⟩
  | [], some (_, _) => simp at h; rw [← h]; exact ⟨rfl, rfl⟩
  | [_], none => simp at h; rw [← h]; exact ⟨rfl, rfl⟩
  | [_], some (_, _) => simp at h; rw [← h]; exact ⟨rfl, rfl⟩
  | [_, _], none => simp at h; rw [← h]; exact ⟨rfl, rfl⟩
  | [_, _], some (_, _) => simp at h; rw [← h]; exact ⟨rfl, rfl⟩
  | _ :: _ :: _ :: _, _ => simp at h

theorem newOption_some {ν : Type} (render : ν → List Char) (caller : Option (List Char × Nat))
    (p : ν) (name : List Char) (short : Char) (helpvalue : List (List Char))
    (hlen : helpvalue.length ≤ 2) :
    ∃ opt, VarLong.newOption render caller p name short helpvalue = some opt := by
  unfold VarLong.newOption
  match helpvalue, caller with
  | [], none => exact ⟨_, rfl⟩
  | [], some (_, _) => exact ⟨_, rfl⟩
  | [_], none => exact ⟨_, rfl⟩
  | [_], some (_, _) => exact ⟨_, rfl⟩
  | [_, _], none => exact ⟨_, rfl⟩
  | [_, _], some (_, _) => exact ⟨_, rfl⟩
  | _ :: _ :: _ :: _, _ => simp at hlen

theorem declare_no_name {ν : Type} (s : Set ν) (opt : option ν)
    (h1 : opt.short = Char.ofNat 0) (h2 : opt.long = []) :
    VarLong.declare s opt = .exited s (.noOption opt.whereAt) := by
  simp [VarLong.declare, h1, h2]

theorem declare_short_declared {ν : Type} (s : Set ν) (opt oo : option ν)
    (h1 : opt.short ≠ Char.ofNat 0) (h2 : s.shortOptions opt.short = some oo) :
    VarLong.declare s opt = .exited s (.shortDeclared opt.whereAt opt.short oo.whereAt) := by
  simp [VarLong.declare, h1, h2]

theorem declare_long_declared {ν : Type} (s : Set ν) (opt oo : option ν)
    (h1 : opt.short ≠ Char.ofNat 0 → s.shortOptions opt.short = none)
    (h2 : opt.long ≠ []) (h3 : s.longOptions opt.long = some oo) :
    ∃ s1, VarLong.declare s opt = .exited s1 (.longDeclared opt.whereAt opt.long oo.whereAt) := by
  by_cases hs : opt.short = Char.ofNat 0
  · exact ⟨s, by simp [VarLong.declare, hs, h2, h3]⟩
  · exact ⟨{ s with shortOptions := fun k => if k = opt.short then some opt else s.shortOptions k },
      by simp [VarLong.declare, hs, h1 hs, h2, h3]⟩

/-- What a call of the second part that returns has checked and done. -/
theorem declare_returned {ν : Type} {s s2 : Set ν} {opt o2 : option ν}
    (h : VarLong.declare s opt = .returned s2 o2) :
    o2 = opt ∧ ¬ (opt.short = Char.ofNat 0 ∧ opt.long = []) ∧
    (opt.short ≠ Char.ofNat 0 → s.shortOptions opt.short = none) ∧
    (opt.long ≠ [] → s.longOptions opt.long = none) ∧
    s2.options = s.options ++ [opt] ∧
    (∀ k, s2.shortOptions k
      = if opt.short ≠ Char.ofNat 0 ∧ k = opt.short then some opt else s.shortOptions k) ∧
    (∀ k, s2.longOptions k
      = if opt.long ≠ [] ∧ k = opt.long then some opt else s.longOptions k) := by
  by_cases h0 : opt.short = Char.ofNat 0 ∧ opt.long = []
  · rw [declare_no_name s opt h0.1 h0.2] at h
    cases h
  · by_cases hs : opt.short = Char.ofNat 0
    · have hl : opt.long ≠ [] := fun e => h0 ⟨hs, e⟩
      cases hm : s.longOptions opt.long with
      | some oo =>
        obtain ⟨s1, e⟩ := declare_long_declared s opt oo (fun x => absurd hs x) hl hm
        rw [e] at h
        cases h
      | none =>
        simp [VarLong.declare, hs, hl, hm] at h
        obtain ⟨h1, h2⟩ := h
        subst h1 h2
        simp [hs, hl, hm]
    · cases hms : s.shortOptions opt.short with
      | some oo =>
        rw [declare_short_declared s opt oo hs hms] at h
        cases h
      | none =>
        by_cases hl : opt.long = []
        · simp [VarLong.declare, hs, hl, hms] at h
          obtain ⟨h1, h2⟩ := h
          subst h1 h2
          simp [hs, hl, hms]
        · cases hm : s.longOptions opt.long with
          | some oo =>
            obtain ⟨s1, e⟩ := declare_long_declared s opt oo (fun _ => hms) hl hm
            rw [e] at h
            cases h
          | none =>
            simp [VarLong.declare, hs, hl, hms, hm] at h
            obtain ⟨h1, h2⟩ := h
            subst h1 h2
            simp [hs, hl, hms, hm]

/-- A declaration that returns keeps the names unshared and the maps in
agreement with the list. -/
theorem declare_preserves {ν : Type} {s s2 : Set ν} {opt o2 : option ν}
    (hn : NoSharedName s.options) (hm : MapsAgree s)
    (h : VarLong.declare s opt = .returned s2 o2) :
    NoSharedName s2.options ∧ MapsAgree s2 := by
  obtain ⟨-, -, hsn, hln, hopts, hsm, hlm⟩ := declare_returned h
  obtain ⟨m1, m2, m3⟩ := hm
  constructor
  · unfold NoSharedName at hn ⊢
    rw [hopts, List.pairwise_append]
    refine ⟨hn, List.pairwise_singleton _ _, ?_⟩
    intro a ha b hb
    rw [List.mem_singleton] at hb
    subst hb
    constructor
    · rintro ⟨h1, h2⟩
      have e1 := (m1 a ha).1 h1
      have e2 := hsn (by rw [← h2]; exact h1)
      rw [← h2, e1] at e2
      cases e2
    · rintro ⟨h1, h2⟩
      have e1 := (m1 a ha).2 h1
      have e2 := hln (by rw [← h2]; exact h1)
      rw [← h2, e1] at e2
      cases e2
  · refine ⟨?_, ?_, ?_⟩
    · intro o ho
      rw [hopts, List.mem_append, List.mem_singleton] at ho
      rcases ho with ho | rfl
      · constructor
        · intro h1
          rw [hsm]
          split
          · rename_i hc
            have e1 := (m1 o ho).1 h1
            have e2 := hsn hc.1
            rw [← hc.2, e1] at e2
            cases e2
          · exact (m1 o ho).1 h1
        · intro h1
          rw [hlm]
          split
          · rename_i hc
            have e1 := (m1 o ho).2 h1
            have e2 := hln hc.1
            rw [← hc.2, e1] at e2
            cases e2
          · exact (m1 o ho).2 h1
      · constructor
        · intro h1
          rw [hsm, if_pos ⟨h1, rfl⟩]
        · intro h1
          rw [hlm, if_pos ⟨h1, rfl⟩]
    · intro k o hk
      rw [hsm] at hk
      split at hk
      · rename_i hc
        cases hk
        exact ⟨by rw [hc.2]; exact hc.1, hc.2.symm, by rw [hopts]; simp⟩
      · obtain ⟨a, b, c⟩ := m2 k o hk
        exact ⟨a, b, by rw [hopts]; exact List.mem_append_left _ c⟩
    · intro k o hk
      rw [hlm] at hk
      split at hk
      · rename_i hc
        cases hk
        exact ⟨by rw [hc.2]; exact hc.1, hc.2.symm, by rw [hopts]; simp⟩
      · obtain ⟨a, b, c⟩ := m3 k o hk
        exact ⟨a, b, by rw [hopts]; exact List.mem_append_left _ c⟩

theorem VarLong_returned {ν : Type} {render : ν → List Char}
    {caller : Option (List Char × Nat)} {s s2 : Set ν} {p : ν} {name : List Char} {short : Char}
    {helpvalue : List (List Char)} {o2 : option ν}
    (h : VarLong render caller s p name short helpvalue = .returned s2 o2) :
    ∃ opt, opt.short = short ∧ opt.long = name ∧ VarLong.declare s opt = .returned s2 o2 := by
  unfold VarLong at h
  cases hn : VarLong.newOption render caller p name short helpvalue with
  | none => rw [hn] at h; cases h
  | some opt =>
    rw [hn] at h
    exact ⟨opt, (newOption_names hn).1, (newOption_names hn).2, h⟩

theorem empty_mapsAgree {ν : Type} :
    NoSharedName (Set.empty : Set ν).options ∧ MapsAgree (Set.empty : Set ν) := by
  refine ⟨List.Pairwise.nil, ?_, ?_, ?_⟩
  · intro o ho; simp [Set.empty] at ho
  · intro k o h; simp [Set.empty] at h
  · intro k o h; simp [Set.empty] at h

/-- In a reached registry the maps agree with the list. -/
theorem reachable_mapsAgree {ν : Type} {render : ν → List Char} {s : Set ν}
    (h : Reachable render s) : MapsAgree s := by
  have hinv : NoSharedName s.options ∧ MapsAgree s := by
    induction h with
    | empty => exact empty_mapsAgree
    | declare caller p name short helpvalue _ hv ih =>
      obtain ⟨opt, -, -, hd⟩ := VarLong_returned hv
      exact declare_preserves ih.1 ih.2 hd
  exact hinv.2

theorem contains_shortDeclared (w d : List Char) (c : Char) :
    Contains (Fatal.shortDeclared w c d).message "already declared at".toList :=
  ⟨w ++ ": -".toList ++ [c] ++ " ".toList, " ".toList ++ d, by simp [Fatal.message]⟩

theorem contains_longDeclared (w l d : List Char) :
    Contains (Fatal.longDeclared w l d).message "already declared at".toList :=
  ⟨w ++ ": --".toList ++ l ++ " ".toList, " ".toList ++ d, by simp [Fatal.message]⟩

/-! ## The later claims -/

/-- C11. When the loop of `register` comes to an exported field with an empty
(or missing) tag and the name `F`, it makes the call `set.FlagLong(field, "",
lower(F), "unspecified")` if `F` is one character and `set.FlagLong(field,
lower(F), 0, "unspecified")` if `F` is longer: the help text is "unspecified",
no parameter name is passed; and (for a valid name) the tags `-f unspecified`
and `--name unspecified` on the field make `register` do the same. -/
theorem register_untagged_field {α σ : Type} (other : Char → Char)
    (flagLong : σ → FlagLongCall α → Option σ) (pre post : List (Field α)) (field : Field α)
    (set set1 : σ) (f g : Char) (rest : List Char)
    (hpre : registerFields (stringsToLower other) flagLong pre set = .returned none set1)
    (hexp : field.canSet = true) (htag : field.tag = []) :
    (field.name = [f] →
      register (stringsToLower other) flagLong (.ptrToStruct (pre ++ field :: post)) set =
        (match flagLong set1
            ⟨field.value, [], toLowerRune other f, ["unspecified".toList]⟩ with
          | none => .flagLongFailed
          | some set2 => registerFields (stringsToLower other) flagLong post set2) ∧
      (ValidShort (toLowerRune other f) →
        register (stringsToLower other) flagLong (.ptrToStruct (pre ++
            { field with tag := "-".toList ++ [toLowerRune other f] ++ " unspecified".toList }
              :: post)) set =
          register (stringsToLower other) flagLong (.ptrToStruct (pre ++ field :: post)) set)) ∧
    (field.name = f :: g :: rest →
      register (stringsToLower other) flagLong (.ptrToStruct (pre ++ field :: post)) set =
        (match flagLong set1
            ⟨field.value, stringsToLower other (f :: g :: rest), Char.ofNat 0,
              ["unspecified".toList]⟩ with
          | none => .flagLongFailed
          | some set2 => registerFields (stringsToLower other) flagLong post set2) ∧
      (ValidLong (stringsToLower other (f :: g :: rest)) →
        register (stringsToLower other) flagLong (.ptrToStruct (pre ++
            { field with tag := "--".toList ++ stringsToLower other (f :: g :: rest)
                ++ " unspecified".toList } :: post)) set =
          register (stringsToLower other) flagLong (.ptrToStruct (pre ++ field :: post)) set)) := by
  have hu0 : "unspecified".toList ≠ [] := by simp
  have hud : "unspecified".toList.head? ≠ some '-' := by simp
  constructor
  · intro hname
    have hauto : autoTag (stringsToLower other field.name)
        = some { short := toLowerRune other f } := by
      rw [hname]; rfl
    have hstep := registerFields_untagged (stringsToLower other) flagLong field post set1
      hexp htag
    rw [hauto] at hstep
    simp only [register, registerFields_append _ _ _ pre set set1 hpre]
    refine ⟨by rw [hstep]; rfl, ?_⟩
    intro hv
    have hp := parseTag_short_help (toLowerRune other f) "unspecified".toList hv
      trimmed_unspecified hu0 hud
    have hstep2 := registerFields_tagged (stringsToLower other) flagLong
      { field with tag := "-".toList ++ [toLowerRune other f] ++ " unspecified".toList }
      post set1 { short := toLowerRune other f, help := "unspecified".toList } hexp
      (by simp) (by simpa using hp)
    rw [hstep, hstep2]
    rfl
  · intro hname
    have hauto : autoTag (stringsToLower other field.name)
        = some { long := stringsToLower other (f :: g :: rest) } := by
      rw [hname]; rfl
    have hstep := registerFields_untagged (stringsToLower other) flagLong field post set1
      hexp htag
    rw [hauto] at hstep
    simp only [register, registerFields_append _ _ _ pre set set1 hpre]
    refine ⟨by rw [hstep]; rfl, ?_⟩
    intro hv
    have hp := parseTag_long_help (stringsToLower other (f :: g :: rest)) "unspecified".toList hv
      trimmed_unspecified hu0 hud
    have hstep2 := registerFields_tagged (stringsToLower other) flagLong
      { field with tag := "--".toList ++ stringsToLower other (f :: g :: rest)
          ++ " unspecified".toList }
      post set1 { long := stringsToLower other (f :: g :: rest), help := "unspecified".toList }
      hexp (by simp [stringsToLower]) (by simpa using hp)
    rw [hstep, hstep2]
    rfl

theorem register_untagged_field_witness :
    register (stringsToLower id) (fun (s : List (FlagLongCall Unit)) c => some (s ++ [c]))
        (.ptrToStruct [⟨"N".toList, [], true, ()⟩]) []
      = .returned none [⟨(), [], 'n', ["unspecified".toList]⟩] ∧
    register (stringsToLower id) (fun (s : List (FlagLongCall Unit)) c => some (s ++ [c]))
        (.ptrToStruct [⟨"Lazy".toList, [], true, ()⟩]) []
      = .returned none [⟨(), "lazy".toList, Char.ofNat 0, ["unspecified".toList]⟩] :=
  ⟨((register_untagged_field id (fun (s : List (FlagLongCall Unit)) c => some (s ++ [c]))
      [] [] ⟨"N".toList, [], true, ()⟩ [] [] 'N' 'x' [] rfl rfl rfl).1 rfl).1,
   ((register_untagged_field id (fun (s : List (FlagLongCall Unit)) c => some (s ++ [c]))
      [] [] ⟨"Lazy".toList, [], true, ()⟩ [] [] 'L' 'a' "zy".toList rfl rfl rfl).2 rfl).1⟩

/-- C12. On a pointer to a struct whose one field `V` has the tag `-v`, no
field declares an option with the empty name, and `Lookup` with the empty
string does not return nil: it returns the value of `V`, whose absent long
name is the empty string. -/
theorem Lookup_empty_name_returns_field (other : Char → Char) :
    ¬ Skipped (⟨"V".toList, "-v".toList, true, true⟩ : Field Bool) ∧
    declared (stringsToLower other) (⟨"V".toList, "-v".toList, true, true⟩ : Field Bool)
      = some { short := 'v' } ∧
    ¬ Declares (stringsToLower other) (⟨"V".toList, "-v".toList, true, true⟩ : Field Bool) [] ∧
    Lookup (stringsToLower other) (.ptrToStruct [⟨"V".toList, "-v".toList, true, true⟩]) []
      = .returned (some true) := by
  have hd : declared (stringsToLower other) (⟨"V".toList, "-v".toList, true, true⟩ : Field Bool)
      = some { short := 'v' } := by rfl
  refine ⟨by simp [Skipped], hd, ?_, rfl⟩
  rintro ⟨o, ho, h⟩
  rw [hd] at ho
  cases ho
  simp at h

/-- C13. On a pointer to a struct with the fields `A`, tag `--alpha`, value 1,
and `B`, tag `--\x00 -b`, value 2, the field `B` declares the long name NUL
and the field `A` before it does not declare that name; `Lookup` with that
name does not return the value of `B`: it returns the value of `A`, whose
absent short name is the NUL character. -/
theorem Lookup_nul_name_returns_earlier_field (other : Char → Char) :
    parseTag "--\x00 -b".toList
      = some (some { long := [Char.ofNat 0], short := 'b' }, none) ∧
    ¬ Skipped (⟨"A".toList, "--alpha".toList, true, 1⟩ : Field Nat) ∧
    declared (stringsToLower other) (⟨"A".toList, "--alpha".toList, true, 1⟩ : Field Nat)
      = some { long := "alpha".toList } ∧
    ¬ Declares (stringsToLower other) (⟨"A".toList, "--alpha".toList, true, 1⟩ : Field Nat)
      [Char.ofNat 0] ∧
    Lookup (stringsToLower other)
        (.ptrToStruct [⟨"A".toList, "--alpha".toList, true, 1⟩,
          ⟨"B".toList, "--\x00 -b".toList, true, 2⟩]) [Char.ofNat 0]
      = .returned (some 1) := by
  have hd : declared (stringsToLower other) (⟨"A".toList, "--alpha".toList, true, 1⟩ : Field Nat)
      = some { long := "alpha".toList } := by rfl
  refine ⟨by decide, by simp [Skipped], hd, ?_, rfl⟩
  rintro ⟨o, ho, h⟩
  rw [hd] at ho
  cases ho
  simp at h

/-- C14. For a pointer to a struct whose considered fields (exported, tag not
exactly `-`) all have valid tags, `Dup` returns a struct of the same fields in
which every considered field has the value of the original and every other
field the zero value of its type; and if some considered field has a tag that
`parseTag` rejects, `Dup` panics with the error of such a field. -/
theorem Dup_copies_considered_fields {α : Type} (zero : Field α → α)
    (fields : List (Field α)) :
    ((∀ f ∈ fields, ¬ Skipped f → ∃ o, parseTag f.tag = some (o, none)) →
      Dup zero (.ptrToStruct fields) = .returned (fields.map fun f =>
        if f.tag = ['-'] ∨ f.canSet = false then { f with value := zero f } else f)) ∧
    ((∃ f ∈ fields, ¬ Skipped f ∧ ∃ o e, parseTag f.tag = some (o, some e)) →
      ∃ f ∈ fields, ¬ Skipped f ∧ ∃ o e, parseTag f.tag = some (o, some e) ∧
        Dup zero (.ptrToStruct fields) = .panicked e) := by
  constructor
  · intro h
    have := dupFields_all_valid zero fields [] h
    simpa [Dup] using this
  · intro h
    exact dupFields_some_rejected zero fields [] h

theorem Dup_copies_considered_fields_witness :
    Dup (fun _ => 0) (.ptrToStruct
        [⟨"Count".toList, "--count -c=COUNT number of widgets".toList, true, 42⟩,
         ⟨"hidden".toList, [], false, 7⟩, ⟨"Skip".toList, "-".toList, true, 9⟩])
      = .returned
        [⟨"Count".toList, "--count -c=COUNT number of widgets".toList, true, 42⟩,
         ⟨"hidden".toList, [], false, 0⟩, ⟨"Skip".toList, "-".toList, true, 0⟩] ∧
    ∃ f ∈ [(⟨"Bad".toList, "---bad".toList, true, 1⟩ : Field Nat)],
      ¬ Skipped f ∧ ∃ o e, parseTag f.tag = some (o, some e) ∧
        Dup (fun _ => 0) (.ptrToStruct [⟨"Bad".toList, "---bad".toList, true, 1⟩])
          = .panicked e :=
  ⟨(Dup_copies_considered_fields (fun _ => 0)
      [⟨"Count".toList, "--count -c=COUNT number of widgets".toList, true, 42⟩,
       ⟨"hidden".toList, [], false, 7⟩, ⟨"Skip".toList, "-".toList, true, 9⟩]).1
      (by
        intro f hf hs
        simp only [List.mem_cons, List.mem_singleton, List.not_mem_nil, or_false] at hf
        rcases hf with rfl | rfl | rfl
        · exact ⟨some ⟨"count".toList, 'c', "COUNT".toList, "number of widgets".toList⟩,
            by decide⟩
        · exact absurd (Or.inr rfl) hs
        · exact absurd (Or.inl rfl) hs),
   (Dup_copies_considered_fields (fun _ => 0) [⟨"Bad".toList, "---bad".toList, true, 1⟩]).2
      ⟨_, List.mem_cons_self _ _, by simp [Skipped], none, .tripleDash "---bad".toList,
        by decide⟩⟩

/-- C15. In every registry reached from the empty one by calls of `VarLong` that
returned, no two options of the list share a non-zero short name or a
non-empty long name; every listed option is the entry of `shortOptions` under
its non-zero short name and of `longOptions` under its non-empty long name; and
the maps hold no other entries. -/
theorem registry_names_unique {ν : Type} (render : ν → List Char) (s : Set ν)
    (h : Reachable render s) : NoSharedName s.options ∧ MapsAgree s := by
  induction h with
  | empty => exact empty_mapsAgree
  | declare caller p name short helpvalue _ hv ih =>
    obtain ⟨opt, -, -, hd⟩ := VarLong_returned hv
    exact declare_preserves ih.1 ih.2 hd

theorem registry_names_unique_witness :
    NoSharedName
        [(⟨'v', "verbose".toList, (), [], [], "be verbose".toList, []⟩ : option Unit)] ∧
    MapsAgree (⟨[⟨'v', "verbose".toList, (), [], [], "be verbose".toList, []⟩],
      fun k => if k = 'v' then some ⟨'v', "verbose".toList, (), [], [], "be verbose".toList, []⟩
        else none,
      fun k => if k = "verbose".toList
        then some ⟨'v', "verbose".toList, (), [], [], "be verbose".toList, []⟩
        else none⟩ : Set Unit) :=
  registry_names_unique (fun _ => []) _
    (Reachable.declare none () "verbose".toList 'v' ["be verbose".toList] Reachable.empty rfl)

/-- C16. For every registry reached by calls of `VarLong` that returned, a
further call with at most two help strings whose non-zero short name is the
short name of a listed option, or whose non-empty long name is the long name
of a listed option, ends in the exit with a message containing "already
declared at" and returns no option. -/
theorem VarLong_declared_name_exits {ν : Type} (render : ν → List Char)
    (caller : Option (List Char × Nat)) (s : Set ν) (p : ν) (name : List Char) (short : Char)
    (helpvalue : List (List Char)) (h : Reachable render s) (hlen : helpvalue.length ≤ 2)
    (hdup : (short ≠ Char.ofNat 0 ∧ ∃ o ∈ s.options, o.short = short) ∨
      (name ≠ [] ∧ ∃ o ∈ s.options, o.long = name)) :
    ∃ s1 f, VarLong render caller s p name short helpvalue = .exited s1 f ∧
      Contains f.message "already declared at".toList := by
  obtain ⟨m1, -, -⟩ := reachable_mapsAgree h
  obtain ⟨opt, hopt⟩ := newOption_some render caller p name short helpvalue hlen
  obtain ⟨e1, e2⟩ := newOption_names hopt
  simp only [VarLong, hopt]
  by_cases hs : opt.short = Char.ofNat 0
  · have hl : name ≠ [] ∧ ∃ o ∈ s.options, o.long = name := by
      rcases hdup with ⟨h1, _⟩ | h2
      · rw [← e1] at h1; exact absurd hs h1
      · exact h2
    obtain ⟨hl0, o, ho, hol⟩ := hl
    have hm := (m1 o ho).2 (by rw [hol]; exact hl0)
    rw [hol, ← e2] at hm
    obtain ⟨s1, hx⟩ := declare_long_declared s opt o (fun x => absurd hs x)
      (by rw [e2]; exact hl0) hm
    exact ⟨s1, _, hx, contains_longDeclared _ _ _⟩
  · cases hms : s.shortOptions opt.short with
    | some oo =>
      exact ⟨s, _, declare_short_declared s opt oo hs hms, contains_shortDeclared _ _ _⟩
    | none =>
      have hl : name ≠ [] ∧ ∃ o ∈ s.options, o.long = name := by
        rcases hdup with ⟨h1, o, ho, hos⟩ | h2
        · have hm := (m1 o ho).1 (by rw [hos]; exact h1)
          rw [hos, ← e1, hms] at hm
          cases hm
        · exact h2
      obtain ⟨hl0, o, ho, hol⟩ := hl
      have hm := (m1 o ho).2 (by rw [hol]; exact hl0)
      rw [hol, ← e2] at hm
      obtain ⟨s1, hx⟩ := declare_long_declared s opt o (fun _ => hms)
        (by rw [e2]; exact hl0) hm
      exact ⟨s1, _, hx, contains_longDeclared _ _ _⟩

theorem VarLong_declared_name_exits_witness :
    ∃ s1 f,
      VarLong (fun _ : Unit => []) none
          (⟨[⟨'v', "verbose".toList, (), [], [], "be verbose".toList, []⟩],
            fun k => if k = 'v'
              then some ⟨'v', "verbose".toList, (), [], [], "be verbose".toList, []⟩ else none,
            fun k => if k = "verbose".toList
              then some ⟨'v', "verbose".toList, (), [], [], "be verbose".toList, []⟩
              else none⟩ : Set Unit)
          () "verbose".toList 'x' [] = .exited s1 f ∧
      Contains f.message "already declared at".toList :=
  VarLong_declared_name_exits (fun _ => []) none _ () "verbose".toList 'x' []
    (Reachable.declare none () "verbose".toList 'v' ["be verbose".toList] Reachable.empty rfl)
    (by simp)
    (Or.inr ⟨by simp, ⟨'v', "verbose".toList, (), [], [], "be verbose".toList, []⟩,
      by simp, rfl⟩)

/-- C17. For every registry and every call of `VarLong` that returns with a
non-zero short name `c` and a non-empty long name `L`, `shortOptions[c]` and
`longOptions[L]` are afterwards the option returned, the option list is the
list of before with that option added at the end, and every entry the maps
held before is still there. -/
theorem VarLong_declares_both_names {ν : Type} (render : ν → List Char)
    (caller : Option (List Char × Nat)) (s s2 : Set ν) (p : ν) (L : List Char) (c : Char)
    (helpvalue : List (List Char)) (opt : option ν)
    (h : VarLong render caller s p L c helpvalue = .returned s2 opt)
    (hc : c ≠ Char.ofNat 0) (hL : L ≠ []) :
    s2.shortOptions c = some opt ∧ s2.longOptions L = some opt ∧
    s2.options = s.options ++ [opt] ∧
    (∀ k o, s.shortOptions k = some o → s2.shortOptions k = some o) ∧
    (∀ k o, s.longOptions k = some o → s2.longOptions k = some o) := by
  obtain ⟨o1, e1, e2, hd⟩ := VarLong_returned h
  obtain ⟨rfl, -, hsn, hln, hopts, hsm, hlm⟩ := declare_returned hd
  rw [e1] at hsn hsm
  rw [e2] at hln hlm
  refine ⟨?_, ?_, hopts, ?_, ?_⟩
  · rw [hsm, if_pos ⟨hc, rfl⟩]
  · rw [hlm, if_pos ⟨hL, rfl⟩]
  · intro k o hk
    rw [hsm]
    split
    · rename_i hcond
      rw [hcond.2, hsn hc] at hk
      cases hk
    · exact hk
  · intro k o hk
    rw [hlm]
    split
    · rename_i hcond
      rw [hcond.2, hln hL] at hk
      cases hk
    · exact hk

theorem VarLong_declares_both_names_witness :
    (fun k => if k = 'v'
        then some (⟨'v', "verbose".toList, (), [], [], "be verbose".toList, []⟩ : option Unit)
        else none) 'v'
      = some ⟨'v', "verbose".toList, (), [], [], "be verbose".toList, []⟩ ∧
    (fun k => if k = "verbose".toList
        then some (⟨'v', "verbose".toList, (), [], [], "be verbose".toList, []⟩ : option Unit)
        else none) "verbose".toList
      = some ⟨'v', "verbose".toList, (), [], [], "be verbose".toList, []⟩ ∧
    [(⟨'v', "verbose".toList, (), [], [], "be verbose".toList, []⟩ : option Unit)]
      = [] ++ [⟨'v', "verbose".toList, (), [], [], "be verbose".toList, []⟩] :=
  have h := VarLong_declares_both_names (fun _ : Unit => []) none Set.empty
    ⟨[⟨'v', "verbose".toList, (), [], [], "be verbose".toList, []⟩],
      fun k => if k = 'v'
        then some ⟨'v', "verbose".toList, (), [], [], "be verbose".toList, []⟩ else none,
      fun k => if k = "verbose".toList
        then some ⟨'v', "verbose".toList, (), [], [], "be verbose".toList, []⟩ else none⟩
    () "verbose".toList 'v' ["be verbose".toList]
    ⟨'v', "verbose".toList, (), [], [], "be verbose".toList, []⟩ rfl (by decide) (by simp)
  ⟨h.1, h.2.1, h.2.2.1⟩

/-- C18. For every registry and every value, `VarLong` with the short name 0,
the long name `""` and at most two help strings ends in the exit whose message
ends with "no short or long option given", the registry being then as it was
before the call. -/
theorem VarLong_no_name_exits {ν : Type} (render : ν → List Char)
    (caller : Option (List Char × Nat)) (s : Set ν) (p : ν) (helpvalue : List (List Char))
    (hlen : helpvalue.length ≤ 2) :
    ∃ w, VarLong render caller s p [] (Char.ofNat 0) helpvalue = .exited s (.noOption w) ∧
      "no short or long option given".toList <:+ (Fatal.noOption w).message := by
  obtain ⟨opt, hopt⟩ := newOption_some render caller p [] (Char.ofNat 0) helpvalue hlen
  obtain ⟨e1, e2⟩ := newOption_names hopt
  refine ⟨opt.whereAt, ?_, opt.whereAt ++ ": ".toList, by simp [Fatal.message]⟩
  simp only [VarLong, hopt]
  exact declare_no_name s opt e1 e2

theorem VarLong_no_name_exits_witness :
    ∃ w, VarLong (fun _ : Unit => []) (some ("main.go".toList, 12)) Set.empty ()
        [] (Char.ofNat 0) ["help".toList] = .exited Set.empty (.noOption w) ∧
      "no short or long option given".toList <:+ (Fatal.noOption w).message :=
  VarLong_no_name_exits (fun _ => []) (some ("main.go".toList, 12)) Set.empty ()
    ["help".toList] (by simp)

/-- C19. `boolValue.Set(value)` returns an error exactly when the lower-cased
value is not one of `""`, `1`, `true`, `on`, `t`, `0`, `false`, `off`, `f`;
for the first five it stores true and for the last four false, whatever the
letter case of `value` and whatever was stored before; on an error what was
stored is left as it was. -/
theorem boolValue_Set_cases (other : Char → Char) (b : boolValue) (value optName : List Char) :
    ((boolValue.Set other b value optName).2 ≠ none ↔
      stringsToLower other value ∉ ["".toList, "1".toList, "true".toList, "on".toList,
        "t".toList, "0".toList, "false".toList, "off".toList, "f".toList]) ∧
    (stringsToLower other value ∈ ["".toList, "1".toList, "true".toList, "on".toList,
        "t".toList] →
      boolValue.Set other b value optName = (true, none)) ∧
    (stringsToLower other value ∈ ["0".toList, "false".toList, "off".toList, "f".toList] →
      boolValue.Set other b value optName = (false, none)) ∧
    ((boolValue.Set other b value optName).2 ≠ none →
      (boolValue.Set other b value optName).1 = b) ∧
    (∀ (b2 : boolValue) (value2 : List Char),
      stringsToLower other value2 = stringsToLower other value →
      (boolValue.Set other b value optName).2 = none →
      boolValue.Set other b2 value2 optName = boolValue.Set other b value optName) := by
  unfold boolValue.Set
  generalize stringsToLower other value = v
  by_cases h5 : v = "".toList ∨ v = "1".toList ∨ v = "true".toList ∨ v = "on".toList ∨
      v = "t".toList
  · have h4 : ¬ (v = "0".toList ∨ v = "false".toList ∨ v = "off".toList ∨ v = "f".toList) := by
      rcases h5 with rfl | rfl | rfl | rfl | rfl <;> decide
    refine ⟨?_, ?_, ?_, ?_, ?_⟩
    · simp only [if_pos h5]
      simp only [List.mem_cons, List.mem_singleton, List.not_mem_nil, or_false]
      constructor
      · intro h; exact absurd rfl h
      · intro h; exact absurd (by tauto) h
    · intro _; simp only [if_pos h5]
    · intro h
      simp only [List.mem_cons, List.mem_singleton, List.not_mem_nil, or_false] at h
      exact absurd h h4
    · simp only [if_pos h5]
      intro h; exact absurd rfl h
    · intro b2 value2 e _
      simp only [e, if_pos h5]
  · by_cases h4 : v = "0".toList ∨ v = "false".toList ∨ v = "off".toList ∨ v = "f".toList
    · refine ⟨?_, ?_, ?_, ?_, ?_⟩
      · simp only [if_neg h5, if_pos h4]
        simp only [List.mem_cons, List.mem_singleton, List.not_mem_nil, or_false]
        constructor
        · intro h; exact absurd rfl h
        · intro h; exact absurd (by tauto) h
      · intro h
        simp only [List.mem_cons, List.mem_singleton, List.not_mem_nil, or_false] at h
        exact absurd h h5
      · intro _; simp only [if_neg h5, if_pos h4]
      · simp only [if_neg h5, if_pos h4]
        intro h; exact absurd rfl h
      · intro b2 value2 e _
        simp only [e, if_neg h5, if_pos h4]
    · refine ⟨?_, ?_, ?_, ?_, ?_⟩
      · simp only [if_neg h5, if_neg h4]
        simp only [List.mem_cons, List.mem_singleton, List.not_mem_nil, or_false]
        constructor
        · intro _; tauto
        · intro _; simp
      · intro h
        simp only [List.mem_cons, List.mem_singleton, List.not_mem_nil, or_false] at h
        exact absurd h h5
      · intro h
        simp only [List.mem_cons, List.mem_singleton, List.not_mem_nil, or_false] at h
        exact absurd h h4
      · intro _; simp only [if_neg h5, if_neg h4]
      · intro b2 value2 e h
        simp only [if_neg h5, if_neg h4] at h
        simp at h

theorem boolValue_Set_cases_witness :
    boolValue.Set id false "TRUE".toList "-v".toList = (true, none) ∧
    boolValue.Set id true "Off".toList "-v".toList = (false, none) ∧
    boolValue.Set id false [] "-v".toList = (true, none) ∧
    boolValue.Set id true "maybe".toList "-v".toList
      = (true, some (.invalidBool "-v".toList "maybe".toList)) :=
  ⟨(boolValue_Set_cases id false "TRUE".toList "-v".toList).2.1 (by decide),
   (boolValue_Set_cases id true "Off".toList "-v".toList).2.2.1 (by decide),
   (boolValue_Set_cases id false [] "-v".toList).2.1 (by decide),
   by decide⟩

/-- C20. For every bool `b`, `Set(b.String())` on any `boolValue` succeeds and
leaves it equal to `b`; for every string `s`, `Set(s.String())` on any
`stringValue` succeeds and leaves it equal to `s`; `stringValue.Set` never
fails and stores its argument as it is. -/
theorem adapters_round_trip (other : Char → Char) (b b0 : boolValue) (s s0 : stringValue)
    (value optName : List Char) :
    boolValue.Set other b0 (boolValue.String b) optName = (b, none) ∧
    stringValue.Set s0 (stringValue.String s) optName = (s, none) ∧
    stringValue.Set s0 value optName = (value, none) := by
  refine ⟨?_, rfl, rfl⟩
  cases b
  · have e : stringsToLower other (boolValue.String false) = "false".toList := by
      simp [boolValue.String, stringsToLower, toLowerRune]
    simp only [boolValue.Set, e]
    simp
  · have e : stringsToLower other (boolValue.String true) = "true".toList := by
      simp [boolValue.String, stringsToLower, toLowerRune]
    simp only [boolValue.Set, e]
    simp

/-! ## The loop of `parseTag`: termination and slices -/

theorem nextOption_rest_shorter {s : List Char} (h : s.head? = some '-') :
    (nextOption s).2.2.length < s.length := by
  cases s with
  | nil => simp at h
  | cons c t =>
    have hc : c = '-' := by simpa using h
    subst hc
    rw [nextOption_rest]
    cases hi : index ('-' :: t) ' ' with
    | none => simp
    | some x =>
      have hx : 0 < x := index_pos (by decide) hi
      refine lt_of_le_of_lt (trimSpace_length_le _) ?_
      simp only [List.length_drop, List.length_cons]
      omega

theorem argPrefix_length_le (a : List Char) : (argPrefix a).length ≤ a.length :=
  (List.takeWhile_prefix _).length_le

/-- C21. The function `parseTag` is total: on every string its loop returns;
every pass that does not return leaves a strictly shorter remaining text, the
rest `nextOption` gives being strictly shorter than an argument that starts
with `-`; and no slice is out of range: an offset `strings.Index` finds lies
inside the string, and `arg[1:]`, `arg[2:]` are taken of an `arg` with at least
one, two leading dashes. -/
theorem parseTag_total :
    (∀ tag : List Char, ∃ r, parseTag tag = some r) ∧
    (∀ (tag : List Char) (o o2 : optTag) (next next2 : List Char),
      parseStep tag o next = .again o2 next2 → next2.length < next.length) ∧
    (∀ s : List Char, s.head? = some '-' → (nextOption s).2.2.length < s.length) ∧
    (∀ (s : List Char) (c : Char) (x : Nat), index s c = some x → x + 1 ≤ s.length) ∧
    (∀ arg : List Char, argPrefix arg = ['-'] → 1 ≤ arg.length) ∧
    (∀ arg : List Char, argPrefix arg = ['-', '-'] → 2 ≤ arg.length) := by
  refine ⟨?_, ?_, ?_, ?_, ?_, ?_⟩
  · intro tag
    unfold parseTag
    by_cases h : trimSpace tag = []
    · exact ⟨(none, none), by simp [h]⟩
    · obtain ⟨r, hr⟩ := parseLoop_returns (trimSpace tag) ((trimSpace tag).length + 1) {}
        (trimSpace tag) (Nat.lt_succ_self _)
      exact ⟨r, by simp [h, hr]⟩
  · intro tag o o2 next next2 h
    exact parseStep_again_shorter h
  · intro s h
    exact nextOption_rest_shorter h
  · intro s c x h
    exact index_lt h
  · intro arg h
    have := argPrefix_length_le arg
    rw [h] at this
    exact this
  · intro arg h
    have := argPrefix_length_le arg
    rw [h] at this
    exact this

theorem parseTag_total_witness :
    (∃ r, parseTag "--option=PARAM -o -- - this is help".toList = some r) ∧
    (nextOption "-o -- - this is help".toList).2.2.length < "-o -- - this is help".toList.length :=
  ⟨parseTag_total.1 _, parseTag_total.2.2.1 _ rfl⟩

/-! ## The states the loop reaches -/

/-- What the loop returns from a state it reaches is what `parseTag` returns. -/
theorem loopReaches_result {tag : List Char} {o : optTag} {next : List Char}
    (h : LoopReaches tag o next) :
    ∀ (n : Nat) (r : TagResult), parseLoop n tag o next = some r →
      ∃ m, parseLoop m tag {} tag = some r := by
  induction h with
  | start => intro n r hr; exact ⟨n, hr⟩
  | pass _ hstep ih =>
    intro n r hr
    exact ih (n + 1) r (by rw [parseLoop_again n hstep]; exact hr)

theorem parseTag_of_reached {t tag : List Char} {o : optTag} {next : List Char} {r : TagResult}
    (ht : trimSpace t = tag) (h0 : tag ≠ []) (h : LoopReaches tag o next)
    (hstep : parseStep tag o next = .done r) : parseTag t = some r := by
  obtain ⟨m, hm⟩ := loopReaches_result h 1 r (parseLoop_done 0 hstep)
  exact parseTag_of_loop ht h0 hm

theorem contains_invalidShort (quote : List Char → List Char) (t : List Char) :
    Contains ((TagError.invalidShort t).message quote) "invalid short name".toList :=
  ⟨"getopt tag has ".toList, ": ".toList ++ quote t, by simp [TagError.message]⟩

/-- The pass over a token of one dash and two or more characters, no short name
being recorded. -/
theorem parseStep_long_short (tag : List Char) (o : optTag) {a b : Char} {rest s : List Char}
    (ha : a ≠ '-') (hsp : ' ' ∉ a :: b :: rest) (heq : '=' ∉ a :: b :: rest) (hs : Sep s)
    (ho : o.short = Char.ofNat 0) :
    parseStep tag o ('-' :: a :: b :: (rest ++ s)) = .done (none, some (.invalidShort tag)) := by
  have h := nextOption_plain (t := a :: b :: rest) (s := s) hsp heq hs
  simp only [List.cons_append] at h
  have hp : argPrefix ('-' :: a :: b :: rest) = ['-'] := argPrefix_one (by simp [ha])
  simp [parseStep, h, hp, ho, ha]

/-- The same with a parameter name on the token. -/
theorem parseStep_long_short_param (tag : List Char) (o : optTag) {a b : Char}
    {rest p s : List Char} (ha : a ≠ '-') (hsp : ' ' ∉ a :: b :: rest)
    (heq : '=' ∉ a :: b :: rest) (hp : ' ' ∉ p) (hs : Sep s) (ho : o.short = Char.ofNat 0)
    (hpar : p ≠ [] → o.param = []) :
    parseStep tag o ('-' :: a :: b :: (rest ++ '=' :: (p ++ s)))
      = .done (none, some (.invalidShort tag)) := by
  have h := nextOption_param (a := a :: b :: rest) (p := p) (s := s) hsp heq hp hs
  simp only [List.cons_append] at h
  have hq : argPrefix ('-' :: a :: b :: rest) = ['-'] := argPrefix_one (by simp [ha])
  by_cases hp0 : p = []
  · subst hp0
    simp only [List.nil_append] at h ⊢
    simp [parseStep, h, hq, ho, ha]
  · simp [parseStep, h, hq, ho, ha, hp0, hpar hp0]

/-- C23. When the loop of `parseTag` reaches a token of exactly one dash and two
or more characters while no short name is recorded (and, the token carrying a
non-empty `=PARAM`, no parameter name is recorded), `parseTag` returns no tag
and an error containing "invalid short name": the first character is not taken
as the short name. -/
theorem parseTag_invalid_short_name (t tag next rest s P : List Char) (o : optTag) (a b : Char)
    (ht : trimSpace t = tag) (h0 : tag ≠ []) (hreach : LoopReaches tag o next)
    (ha : a ≠ '-') (hsp : ' ' ∉ a :: b :: rest) (heq : '=' ∉ a :: b :: rest) (hs : Sep s)
    (ho : o.short = Char.ofNat 0) :
    (next = '-' :: a :: b :: (rest ++ s) →
      failsWith (parseTag t) "invalid short name".toList) ∧
    (' ' ∉ P → (P ≠ [] → o.param = []) → next = '-' :: a :: b :: (rest ++ '=' :: (P ++ s)) →
      failsWith (parseTag t) "invalid short name".toList) := by
  constructor
  · intro hn
    subst hn
    exact ⟨.invalidShort tag,
      parseTag_of_reached ht h0 hreach (parseStep_long_short tag o ha hsp heq hs ho),
      fun q => contains_invalidShort q _⟩
  · intro hP hpar hn
    subst hn
    exact ⟨.invalidShort tag,
      parseTag_of_reached ht h0 hreach
        (parseStep_long_short_param tag o ha hsp heq hP hs ho hpar),
      fun q => contains_invalidShort q _⟩

theorem parseTag_invalid_short_name_witness :
    failsWith (parseTag "--option -ab help".toList) "invalid short name".toList ∧
    failsWith (parseTag "-ab=PARAM".toList) "invalid short name".toList :=
  ⟨(parseTag_invalid_short_name "--option -ab help".toList "--option -ab help".toList
      "-ab help".toList [] " help".toList [] { long := "option".toList } 'a' 'b'
      (by decide) (by simp) (LoopReaches.pass LoopReaches.start (by decide))
      (by decide) (by simp) (by simp) (Or.inr rfl) rfl).1 rfl,
   (parseTag_invalid_short_name "-ab=PARAM".toList "-ab=PARAM".toList
      "-ab=PARAM".toList [] [] "PARAM".toList {} 'a' 'b'
      (by decide) (by simp) LoopReaches.start
      (by decide) (by simp) (by simp) (Or.inl rfl) rfl).2 (by simp) (fun _ => rfl) rfl⟩

/-! ## The tag the loop returns -/

/-- The option `nextOption` returns has no space and no `=`, and the rest it
returns of a trimmed string is trimmed. -/
theorem nextOption_facts {s : List Char} (hs : Trimmed s) :
    ' ' ∉ (nextOption s).1 ∧ '=' ∉ (nextOption s).1 ∧ Trimmed (nextOption s).2.2 := by
  by_cases hd : s.head? = some '-'
  · cases s with
    | nil => simp at hd
    | cons c t =>
      have hc : c = '-' := by simpa using hd
      subst hc
      rw [nextOption_eq]
      refine ⟨?_, ?_, trimmed_trimSpace _⟩
      · intro hmem
        have h1 := (List.takeWhile_prefix (fun x : Char => x != '=')).subset hmem
        have h2 := List.mem_takeWhile_imp h1
        simp at h2
      · intro hmem
        have h2 := List.mem_takeWhile_imp hmem
        simp at h2
  · rw [nextOption_help hd]
    exact ⟨by simp, by simp, hs⟩

theorem argPrefix_two_shape {arg : List Char} (h : argPrefix arg = ['-', '-']) :
    ∃ r, arg = '-' :: '-' :: r ∧ r.head? ≠ some '-' := by
  have e := List.takeWhile_append_dropWhile (fun x : Char => x == '-') arg
  unfold argPrefix at h
  rw [h] at e
  refine ⟨arg.dropWhile (fun x : Char => x == '-'), by simpa using e.symm, ?_⟩
  intro hh
  have := List.head?_dropWhile_not (fun x : Char => x == '-') arg
  rw [hh] at this
  simp at this

/-- A pass of the loop that returns a tag: the tag is `o` with the help text
set to the rest, and `o` has a name. -/
theorem parseStep_done_tag {tag next : List Char} {o t : optTag}
    (h : parseStep tag o next = .done (some t, none)) :
    t = { o with help := (nextOption next).2.2 } ∧ ¬ (o.long = [] ∧ o.short = Char.ofNat 0) := by
  obtain ⟨arg, param, rest, hn⟩ : ∃ arg param rest, nextOption next = (arg, param, rest) :=
    ⟨_, _, _, rfl⟩
  rw [hn]
  by_cases hterm : arg = [] ∨ arg = ['-'] ∨ arg = ['-', '-']
  · simp only [parseStep, hn, hterm, if_true] at h
    split_ifs at h with h1 h2 h3
    · simp at h
    · simp at h
    · simp at h
    · simp only [Step.done.injEq, Prod.mk.injEq, Option.some.injEq, and_true] at h
      exact ⟨h.symm, h2⟩
  · simp only [parseStep, hn, hterm, if_false] at h
    split_ifs at h <;> (try split at h) <;> simp at h

/-- A pass of the loop that goes round again: the new remaining text is the
rest, and the long name is as before or is `arg[2:]` of an option with exactly
two leading dashes. -/
theorem parseStep_again_state {tag next next2 : List Char} {o o2 : optTag}
    (h : parseStep tag o next = .again o2 next2) :
    next2 = (nextOption next).2.2 ∧
    (o2.long = o.long ∨
      (o2.long = (nextOption next).1.drop 2 ∧ argPrefix (nextOption next).1 = ['-', '-'] ∧
        (nextOption next).1 ≠ ['-', '-'])) := by
  obtain ⟨arg, param, rest, hn⟩ : ∃ arg param rest, nextOption next = (arg, param, rest) :=
    ⟨_, _, _, rfl⟩
  rw [hn]
  by_cases hterm : arg = [] ∨ arg = ['-'] ∨ arg = ['-', '-']
  · simp only [parseStep, hn, hterm, if_true] at h
    split_ifs at h
  · have h2 : arg ≠ ['-', '-'] := fun e => hterm (Or.inr (Or.inr e))
    simp only [parseStep, hn, hterm, if_false] at h
    split_ifs at h <;> (try split at h) <;> simp at h <;>
      (obtain ⟨e1, e2⟩ := h; subst e1 e2; simp [*])

/-- The tag the loop returns is well formed, when the loop starts from a
trimmed remaining text and a long name that is absent or well formed. -/
theorem parseLoop_wellFormed (tag : List Char) :
    ∀ (n : Nat) (o : optTag) (next : List Char) (t : optTag), Trimmed next →
      (o.long ≠ [] → o.long.head? ≠ some '-' ∧ ' ' ∉ o.long ∧ '=' ∉ o.long) →
      parseLoop n tag o next = some (some t, none) → WellFormed t := by
  intro n
  induction n with
  | zero => intro o next t _ _ h; simp [parseLoop] at h
  | succ n ih =>
    intro o next t hnext hlong h
    obtain ⟨f1, f2, f3⟩ := nextOption_facts hnext
    cases hstep : parseStep tag o next with
    | done r =>
      rw [parseLoop_done n hstep] at h
      cases h
      obtain ⟨e, hname⟩ := parseStep_done_tag hstep
      subst e
      refine ⟨?_, hlong, f3⟩
      by_cases hl : o.long = []
      · exact Or.inr (fun hs => hname ⟨hl, hs⟩)
      · exact Or.inl hl
    | again o2 next2 =>
      rw [parseLoop_again n hstep] at h
      obtain ⟨e, hl⟩ := parseStep_again_state hstep
      subst e
      refine ih o2 _ t f3 ?_ h
      rcases hl with hl | ⟨hl, hpre, -⟩
      · rw [hl]; exact hlong
      · intro _
        obtain ⟨r, hr, hhead⟩ := argPrefix_two_shape hpre
        rw [hl, hr]
        rw [hr] at f1 f2
        simp only [List.mem_cons, not_or] at f1 f2
        exact ⟨hhead, f1.2.2, f2.2.2⟩

/-- Every tag `parseTag` returns is well formed. -/
theorem parseTag_wellFormed {tag : List Char} {t : optTag}
    (h : parseTag tag = some (some t, none)) : WellFormed t := by
  unfold parseTag at h
  by_cases h0 : trimSpace tag = []
  · simp [h0] at h
  · simp only [h0, if_false] at h
    exact parseLoop_wellFormed _ _ {} _ t (trimmed_trimSpace tag) (fun hl => absurd rfl hl) h

/-- The pass of `register` over a field it considers and whose tag `parseTag`
accepts. -/
theorem registerFields_cons {α σ : Type} (toLower : List Char → List Char)
    (flagLong : σ → FlagLongCall α → Option σ) (field : Field α) (rest : List (Field α))
    (set : σ) (t : Option optTag) (hs : ¬ Skipped field)
    (htag : parseTag field.tag = some (t, none)) :
    registerFields toLower flagLong (field :: rest) set =
      match (match t with
          | some o => some o
          | none => autoTag (toLower field.name)) with
      | none => .nilDeref
      | some o =>
        match flagLong set ⟨field.value, o.long, o.short,
            if o.param = [] then [if o.help = [] then "unspecified".toList else o.help]
            else [if o.help = [] then "unspecified".toList else o.help, o.param]⟩ with
        | none => .flagLongFailed
        | some set2 => registerFields toLower flagLong rest set2 := by
  unfold Skipped at hs
  simp only [registerFields, if_neg hs, htag]
  cases (match t with
      | some o => some o
      | none => autoTag (toLower field.name)) with
  | none => simp
  | some o =>
    by_cases hh : o.help = [] <;> by_cases hp : o.param = [] <;> simp [hh, hp]

/-- The tag made up from a field name that is not the NUL character has a
name. -/
theorem autoTag_named {n : List Char} {o : optTag} (hn : n ≠ [Char.ofNat 0])
    (h : autoTag n = some o) : o.long ≠ [] ∨ o.short ≠ Char.ofNat 0 := by
  match n, h with
  | [r], h =>
    simp only [autoTag, Option.some.injEq] at h
    subst h
    right
    intro e
    exact hn (by simpa using e)
  | _ :: _ :: _, h =>
    simp only [autoTag, Option.some.injEq] at h
    subst h
    left
    simp

/-- The name of the declaration `register` makes for a considered field. -/
theorem declaration_named {α : Type} (toLower : List Char → List Char) (f : Field α)
    (t : Option optTag) (o : optTag)
    (ho : (match t with
        | some o => some o
        | none => autoTag (toLower f.name)) = some o)
    (hn : t = none → toLower f.name ≠ [Char.ofNat 0])
    (htag : parseTag f.tag = some (t, none)) :
    o.long ≠ [] ∨ o.short ≠ Char.ofNat 0 := by
  cases t with
  | some o2 =>
    simp only [Option.some.injEq] at ho
    subst ho
    exact (parseTag_wellFormed htag).1
  | none => exact autoTag_named (hn rfl) ho

/-- The loop of `register` makes no call of `FlagLong` with neither name: what
`FlagLong` does on such a call does not matter to it. -/
theorem registerFields_named_calls {α σ : Type} (toLower : List Char → List Char)
    (fl fl2 : σ → FlagLongCall α → Option σ)
    (hagree : ∀ s c, (c.long ≠ [] ∨ c.short ≠ Char.ofNat 0) → fl s c = fl2 s c) :
    ∀ (fields : List (Field α)) (set : σ),
      (∀ f ∈ fields, parseTag f.tag = some (none, none) → toLower f.name ≠ [Char.ofNat 0]) →
      registerFields toLower fl fields set = registerFields toLower fl2 fields set := by
  intro fields
  induction fields with
  | nil => intro set _; rfl
  | cons f fs ih =>
    intro set hnames
    have ih2 := fun s => ih s (fun g hg => hnames g (List.mem_cons_of_mem _ hg))
    have hn := hnames f (List.mem_cons_self _ _)
    by_cases hs : Skipped f
    · have hs2 := hs
      unfold Skipped at hs2
      simp only [registerFields, if_pos hs2]
      exact ih2 set
    · obtain ⟨r, hr⟩ := parseTag_returns f.tag
      obtain ⟨t, e⟩ := r
      cases e with
      | some err =>
        unfold Skipped at hs
        simp only [registerFields, if_neg hs, hr]
      | none =>
        rw [registerFields_cons toLower fl f fs set t hs hr,
          registerFields_cons toLower fl2 f fs set t hs hr]
        cases ho : (match t with
            | some o => some o
            | none => autoTag (toLower f.name)) with
        | none => rfl
        | some o =>
          have hnamed := declaration_named toLower f t o ho
            (fun e => hn (by rw [hr, e])) hr
          simp only
          rw [hagree set _ hnamed]
          cases fl2 set ⟨f.value, o.long, o.short,
              if o.param = [] then [if o.help = [] then "unspecified".toList else o.help]
              else [if o.help = [] then "unspecified".toList else o.help, o.param]⟩ with
          | none => rfl
          | some set2 => exact ih2 set2

/-- The calls of `FlagLong` a returning loop of `register` has made all have a
name, when the registry records the calls it gets. -/
theorem registerFields_trace_named {α : Type} (toLower : List Char → List Char) :
    ∀ (fields : List (Field α)) (calls calls2 : List (FlagLongCall α)) (e : Option GoError),
      (∀ f ∈ fields, parseTag f.tag = some (none, none) → toLower f.name ≠ [Char.ofNat 0]) →
      (∀ c ∈ calls, c.long ≠ [] ∨ c.short ≠ Char.ofNat 0) →
      registerFields toLower (fun s c => some (s ++ [c])) fields calls = .returned e calls2 →
      ∀ c ∈ calls2, c.long ≠ [] ∨ c.short ≠ Char.ofNat 0 := by
  intro fields
  induction fields with
  | nil =>
    intro calls calls2 e _ hc h
    simp only [registerFields, Outcome.returned.injEq] at h
    rw [← h.2]
    exact hc
  | cons f fs ih =>
    intro calls calls2 e hnames hc h
    have ih2 := fun cs hcs h2 =>
      ih cs calls2 e (fun g hg => hnames g (List.mem_cons_of_mem _ hg)) hcs h2
    have hn := hnames f (List.mem_cons_self _ _)
    by_cases hs : Skipped f
    · have hs2 := hs
      unfold Skipped at hs2
      simp only [registerFields, if_pos hs2] at h
      exact ih2 calls hc h
    · obtain ⟨r, hr⟩ := parseTag_returns f.tag
      obtain ⟨t, err⟩ := r
      cases err with
      | some err =>
        unfold Skipped at hs
        simp only [registerFields, if_neg hs, hr] at h
        cases h
      | none =>
        rw [registerFields_cons toLower _ f fs calls t hs hr] at h
        cases ho : (match t with
            | some o => some o
            | none => autoTag (toLower f.name)) with
        | none =>
          simp only [ho] at h
          cases h
        | some o =>
          have hnamed := declaration_named toLower f t o ho
            (fun e => hn (by rw [hr, e])) hr
          simp only [ho] at h
          refine ih2 _ ?_ h
          intro c hmem
          rcases List.mem_append.1 hmem with hmem | hmem
          · exact hc c hmem
          · rw [List.mem_singleton.1 hmem]
            exact hnamed

/-- C22. Every tag `parseTag` returns with a nil error is well formed for a
declaration: it has a non-empty long name or a non-zero short name; its long
name, when present, does not begin with `-` and has neither a space nor `=`;
its help text has no leading or trailing white space.  Hence `register` passes
no declaration with neither name to the registry: with a registry that records
its calls, every call recorded when `register` returns has a name; and with any
registry, what `FlagLong` does with a nameless declaration does not change how
`register` ends.  For a field without a tag the name comes from the field name,
which, being a Go identifier, is not the NUL character when lower-cased. -/
theorem parseTag_returns_wellFormed_tag (α σ : Type) (other : Char → Char) :
    (∀ (tag : List Char) (t : optTag), parseTag tag = some (some t, none) → WellFormed t) ∧
    (∀ (fields : List (Field α)) (calls : List (FlagLongCall α)) (e : Option GoError),
      (∀ f ∈ fields, parseTag f.tag = some (none, none) →
        stringsToLower other f.name ≠ [Char.ofNat 0]) →
      register (stringsToLower other) (fun s c => some (s ++ [c])) (.ptrToStruct fields) []
        = .returned e calls →
      ∀ c ∈ calls, c.long ≠ [] ∨ c.short ≠ Char.ofNat 0) ∧
    (∀ (fl fl2 : σ → FlagLongCall α → Option σ) (fields : List (Field α)) (set : σ),
      (∀ s c, (c.long ≠ [] ∨ c.short ≠ Char.ofNat 0) → fl s c = fl2 s c) →
      (∀ f ∈ fields, parseTag f.tag = some (none, none) →
        stringsToLower other f.name ≠ [Char.ofNat 0]) →
      register (stringsToLower other) fl (.ptrToStruct fields) set
        = register (stringsToLower other) fl2 (.ptrToStruct fields) set) := by
  refine ⟨fun tag t h => parseTag_wellFormed h, ?_, ?_⟩
  · intro fields calls e hnames h
    exact registerFields_trace_named (stringsToLower other) fields [] calls e hnames
      (fun c hc => absurd hc (List.not_mem_nil c)) h
  · intro fl fl2 fields set hagree hnames
    exact registerFields_named_calls (stringsToLower other) fl fl2 hagree fields set hnames

theorem parseTag_returns_wellFormed_tag_witness :
    parseTag " --option=PARAM -o  some help ".toList
      = some (some ⟨"option".toList, 'o', "PARAM".toList, "some help".toList⟩, none) ∧
    WellFormed ⟨"option".toList, 'o', "PARAM".toList, "some help".toList⟩ ∧
    register (stringsToLower id) (fun (s : List (FlagLongCall Unit)) c => some (s ++ [c]))
        (.ptrToStruct [⟨"Name".toList, "--name=NAME -n the name".toList, true, ()⟩,
          ⟨"V".toList, [], true, ()⟩]) []
      = .returned none [⟨(), "name".toList, 'n', ["the name".toList, "NAME".toList]⟩,
          ⟨(), [], 'v', ["unspecified".toList]⟩] ∧
    (∀ c ∈ ([⟨(), "name".toList, 'n', ["the name".toList, "NAME".toList]⟩,
          ⟨(), [], 'v', ["unspecified".toList]⟩] : List (FlagLongCall Unit)),
      c.long ≠ [] ∨ c.short ≠ Char.ofNat 0) ∧
    register (stringsToLower id) (fun (_ : Unit) (c : FlagLongCall Unit) =>
          if c.long = [] ∧ c.short = Char.ofNat 0 then none else some ())
        (.ptrToStruct [⟨"V".toList, "-v".toList, true, ()⟩]) ()
      = register (stringsToLower id) (fun (_ : Unit) (_ : FlagLongCall Unit) => some ())
        (.ptrToStruct [⟨"V".toList, "-v".toList, true, ()⟩]) () :=
  ⟨by decide,
   (parseTag_returns_wellFormed_tag Unit Unit id).1 " --option=PARAM -o  some help ".toList
      _ (by decide),
   rfl,
   (parseTag_returns_wellFormed_tag Unit Unit id).2.1
      [⟨"Name".toList, "--name=NAME -n the name".toList, true, ()⟩, ⟨"V".toList, [], true, ()⟩]
      _ none (by intro f hf _; simp at hf; rcases hf with rfl | rfl <;> decide) rfl,
   (parseTag_returns_wellFormed_tag Unit Unit id).2.2 _ _
      [⟨"V".toList, "-v".toList, true, ()⟩] ()
      (by
        intro s c hc
        have hc2 : ¬ (c.long = [] ∧ c.short = Char.ofNat 0) := fun h => by
          rcases hc with hc | hc
          · exact hc h.1
          · exact hc h.2
        simp [hc2])
      (by intro f hf _; simp at hf; subst hf; decide)⟩

end Getopt
